import Mathlib

/-!
Verification of the CI repository's service-spec-to-Terraform-variables
pipeline: the spec loader's application-name validation, the ALB routing
conflict validator, the Terraform variable renderer, the image-tag patcher
and the service-block extractor, shallowly embedded from
scripts/generate_ecs_services_tfvars.py, scripts/update_service_image_tags.py
and scripts/extract-service-blocks.py.

Strings are modelled as Lean `String` / `List Char`.  Python's `\s`
(whitespace) and `str.lower()` / `str.strip()` are modelled over their ASCII
cases, which is faithful on every byte the scripts themselves emit.
-/

namespace CI

/-- ASCII whitespace, modelling the characters Python treats as whitespace
in regex classes and in default `strip`. -/
def isWS (c : Char) : Bool :=
  c = ' ' || c = '\t' || c = '\n' || c = '\r' || c = '\x0b' || c = '\x0c'

/-- ASCII lower-casing of a single character, modelling `str.lower`. -/
def lowerChar (c : Char) : Char :=
  if 'A' ≤ c ∧ c ≤ 'Z' then Char.ofNat (c.toNat + 32) else c

/-- `str.lower` on a whole string (ASCII model). -/
def strLower (s : String) : String := ⟨s.data.map lowerChar⟩

/-- A character allowed by the application-name character class
`[a-z0-9-]`. -/
def appCharOk (c : Char) : Bool :=
  ('a' ≤ c && c ≤ 'z') || ('0' ≤ c && c ≤ '9') || c = '-'

/-- `pat` occurs as a contiguous run inside `hay` (Python `in` on strings). -/
def containsSub (hay pat : List Char) : Bool :=
  match hay with
  | [] => pat.isEmpty
  | _ :: t => pat.isPrefixOf hay || containsSub t pat

/-- The part of a string that Python's `$` anchor ranges over: everything
except one optional final newline. -/
def pyCore (s : String) : List Char :=
  if s.data.getLast? = some '\n' then s.data.dropLast else s.data

/-- Python `re.match(r'^[a-z0-9-]+$', s)` viewed as a Boolean: the match
anchors at the start, and `$` accepts either the end of the string or a
position just before one final newline. -/
def pyMatchAppClass (s : String) : Bool :=
  !(pyCore s).isEmpty && (pyCore s).all appCharOk

/-- Embedding of `validate_application_name` from
generate_ecs_services_tfvars.py (`true` = no exception raised).  The checks
run in source order: emptiness, lower-case, the character-class regex,
leading/trailing hyphen, consecutive hyphens. -/
def validate_application_name (app : String) : Bool :=
  if app = "" then false
  else if app ≠ strLower app then false
  else if !pyMatchAppClass app then false
  else if app.data.head? = some '-' || app.data.getLast? = some '-' then false
  else if containsSub app.data ['-', '-'] then false
  else true

end CI

namespace CI

/-- An HCL-renderable scalar: the health-check override fields may hold a
string or a number. -/
inductive HclVal where
  | s (v : String)
  | i (v : Int)
deriving DecidableEq

/-- The `alb` block of a service spec, with the keys the scripts read. -/
structure Alb where
  alb_id : Option String
  listener_protocol : Option String
  listener_port : Option Int
  path_patterns : List String
  host_patterns : List String
  health_check_path : Option HclVal
  health_check_matcher : Option HclVal
  health_check_interval : Option HclVal
  health_check_timeout : Option HclVal
  health_check_healthy_thr : Option HclVal
  health_check_unhealthy_thr : Option HclVal
deriving DecidableEq

/-- The `autoscaling` block of a service spec. -/
structure Autoscaling where
  min_capacity : Option Int
  max_capacity : Option Int
  cpu_target : Option Int
  memory_target : Option Int
deriving DecidableEq

/-- The `deployment` block of a service spec. -/
structure Deployment where
  minimum_healthy_percent : Option Int
  maximum_percent : Option Int
deriving DecidableEq

/-- A loaded service spec, with the fields the generation script reads.
`application` is the value attached by `load_service_specs`. -/
structure Spec where
  name : String
  application : String
  image_repo : Option String
  container_port : Option Int
  cpu : Option Int
  memory : Option Int
  desired_count : Option Int
  env : List (String × String)
  alb : Option Alb
  autoscaling : Option Autoscaling
  deployment : Option Deployment
deriving DecidableEq

/-- Whether an `alb` mapping is the empty dict, which Python treats as falsy
(`if not alb_config`, `if alb`). -/
def Alb.isEmptyDict (a : Alb) : Bool :=
  a.alb_id = none && a.listener_protocol = none && a.listener_port = none &&
  a.path_patterns = [] && a.host_patterns = [] &&
  a.health_check_path = none && a.health_check_matcher = none &&
  a.health_check_interval = none && a.health_check_timeout = none &&
  a.health_check_healthy_thr = none && a.health_check_unhealthy_thr = none

/-- `spec.get("alb", {}) or {}` followed by a truthiness test: the `alb`
mapping when it is present and non-empty. -/
def albDict (s : Spec) : Option Alb :=
  match s.alb with
  | none => none
  | some a => if a.isEmptyDict then none else some a

/-- `spec.get("autoscaling") or None`: the block when present and truthy. -/
def autoscalingOpt (s : Spec) : Option Autoscaling :=
  s.autoscaling.bind fun a =>
    if a = ⟨none, none, none, none⟩ then none else some a

/-- `spec.get("deployment") or None`: the block when present and truthy. -/
def deploymentOpt (s : Spec) : Option Deployment :=
  s.deployment.bind fun a =>
    if a = ⟨none, none⟩ then none else some a

/-- The ALB id the conflict validator groups a spec under: the spec is
skipped when its `alb` mapping is falsy or its `alb_id` is falsy. -/
def albIdOf (s : Spec) : Option String :=
  match albDict s with
  | none => none
  | some a =>
    match a.alb_id with
    | none => none
    | some i => if i = "" then none else some i

/-- Python `str.strip()` (ASCII whitespace model). -/
def pyStrip (s : String) : String :=
  ⟨((s.data.dropWhile fun c => isWS c).reverse.dropWhile fun c => isWS c).reverse⟩

/-- The normalized host-pattern list of an `alb` block:
`[h.lower().strip() if h else None for h in host_patterns] if host_patterns
else [None]`. -/
def normalizedHosts (a : Alb) : List (Option String) :=
  if a.host_patterns = [] then [none]
  else a.host_patterns.map fun h =>
    if h = "" then none else some (pyStrip (strLower h))

/-- Path-pattern normalization: `path_pattern.rstrip("/") or "/"`. -/
def normPath (p : String) : String :=
  let r : List Char := (p.data.reverse.dropWhile fun c => c = '/').reverse
  if r = [] then "/" else ⟨r⟩

/-- A routing rule key: (normalized host pattern or None, normalized path). -/
abbrev Rule := Option String × String

/-- The record appended under a routing-rule key for one occurrence. -/
structure RuleEntry where
  name : String
  application : String
  path : String
  host : Option String
deriving DecidableEq

/-- Append `v` to the entry list of key `k`, preserving dict insertion
order (Python `dict` with list values). -/
def insertAssoc {K V : Type} [DecidableEq K]
    (l : List (K × List V)) (k : K) (v : V) : List (K × List V) :=
  match l with
  | [] => [(k, [v])]
  | (k', vs) :: rest =>
    if k' = k then (k', vs ++ [v]) :: rest else (k', vs) :: insertAssoc rest k v

/-- The (rule key, entry) pairs one service contributes, in the loop order
of the source: outer loop over `path_patterns`, inner over the normalized
hosts.  A service with no path patterns contributes nothing. -/
def specRulePairs (s : Spec) : List (Rule × RuleEntry) :=
  match albDict s with
  | none => []
  | some a =>
    if a.path_patterns = [] then []
    else a.path_patterns.flatMap fun p =>
      (normalizedHosts a).map fun h =>
        ((h, normPath p), ⟨s.name, s.application, p, h⟩)

/-- The `routing_rules` dict accumulated for one ALB group. -/
def buildRules (svcs : List Spec) : List (Rule × List RuleEntry) :=
  (svcs.flatMap specRulePairs).foldl (fun acc pr => insertAssoc acc pr.1 pr.2) []

/-- The `alb_services` dict: services grouped by ALB id in first-occurrence
order, skipping specs with falsy `alb` or falsy `alb_id`. -/
def albGroups (specs : List Spec) : List (String × List Spec) :=
  specs.foldl
    (fun acc s =>
      match albIdOf s with
      | none => acc
      | some a => insertAssoc acc a s)
    []

/-- Python `sep.join(l)`. -/
def joinWith (sep : String) : List String → String
  | [] => ""
  | [x] => x
  | x :: y :: rest => x ++ sep ++ joinWith sep (y :: rest)

/-- The `application::name` listing of the colliding services. -/
def serviceListStr (es : List RuleEntry) : String :=
  joinWith ", " (es.map fun e => e.application ++ "::" ++ e.name)

/-- One conflict bullet of the failure message; the host branch is taken
when the normalized host pattern is truthy (present and non-empty). -/
def conflictLine (albId : String) (r : Rule) (es : List RuleEntry) : String :=
  match r.1 with
  | some h =>
    if h = "" then
      "  Path pattern \x27" ++ r.2 ++
        "\x27 is used by multiple services on ALB \x27" ++ albId ++
        "\x27:\n    - " ++ serviceListStr es
    else
      "  Host pattern \x27" ++ h ++ "\x27 with path pattern \x27" ++ r.2 ++
        "\x27 is used by multiple services on ALB \x27" ++ albId ++
        "\x27:\n    - " ++ serviceListStr es
  | none =>
    "  Path pattern \x27" ++ r.2 ++
      "\x27 is used by multiple services on ALB \x27" ++ albId ++
      "\x27:\n    - " ++ serviceListStr es

/-- The conflict bullets of one ALB group: one line per routing-rule key
claimed more than once, in rule insertion order. -/
def groupConflictLines (albId : String) (rules : List (Rule × List RuleEntry)) :
    List String :=
  rules.filterMap fun pr =>
    if 2 ≤ pr.2.length then some (conflictLine albId pr.1 pr.2) else none

/-- The full failure message raised for one conflicting ALB group. -/
def groupErrorMsg (albId : String) (conf : List String) : String :=
  "ALB routing conflicts detected for ALB \x27" ++ albId ++ "\x27:\n" ++
    joinWith "\n" conf ++
    "\n\nEach service on the same ALB must have unique routing rules (host + path combinations).\n" ++
    "Please update the service definitions to use different path patterns or host patterns."

/-- The per-group loop body of `validate_alb_routing_conflicts`: groups of
fewer than two services are skipped; the first group with conflicts raises. -/
def validateGroups : List (String × List Spec) → Except String Unit
  | [] => .ok ()
  | (a, svcs) :: rest =>
    if svcs.length < 2 then validateGroups rest
    else
      let conf := groupConflictLines a (buildRules svcs)
      if conf = [] then validateGroups rest else .error (groupErrorMsg a conf)

/-- Embedding of `validate_alb_routing_conflicts` from
generate_ecs_services_tfvars.py. -/
def validate_alb_routing_conflicts (specs : List Spec) : Except String Unit :=
  validateGroups (albGroups specs)

/-- All specs the validator groups under ALB id `a`. -/
def groupOf (specs : List Spec) (a : String) : List Spec :=
  specs.filter fun s => albIdOf s = some a

/-- The combined rule-key list (with multiplicity) of the group of `a`. -/
def groupRules (specs : List Spec) (a : String) : List Rule :=
  (groupOf specs a).flatMap fun s => (specRulePairs s).map Prod.fst

/-- The claim's reading of a conflict, following the spec's words: two
distinct services (two different positions of the spec list) that share an
`alb_id` and produce a common normalized routing rule. -/
def distinctPairShareRule (specs : List Spec) : Bool :=
  (List.range specs.length).any fun i =>
    (List.range specs.length).any fun j =>
      decide (i < j) &&
        (match specs[i]?, specs[j]? with
          | some s1, some s2 =>
            albIdOf s1 ≠ none && albIdOf s1 = albIdOf s2 &&
              ((specRulePairs s1).map Prod.fst).any fun r =>
                ((specRulePairs s2).map Prod.fst).contains r
          | _, _ => false)

theorem lowerChar_fixes {c : Char} (h : appCharOk c = true) : lowerChar c = c := by
  unfold appCharOk at h
  unfold lowerChar
  simp only [Bool.or_eq_true, Bool.and_eq_true, decide_eq_true_eq] at h
  rcases h with (⟨h1, _⟩ | ⟨_, h2⟩) | h1
  · rw [if_neg]
    rintro ⟨_, hZ⟩
    exact absurd (Char.le_trans h1 hZ) (by decide)
  · rw [if_neg]
    rintro ⟨hA, _⟩
    exact absurd (Char.le_trans hA h2) (by decide)
  · subst h1
    rfl

theorem lowerChar_newline : lowerChar '\n' = '\n' := by decide

theorem mk_data_eq (s : String) : (⟨s.data⟩ : String) = s := by
  cases s
  rfl

theorem map_lowerChar_id {l : List Char} (h : ∀ c ∈ l, lowerChar c = c) :
    l.map lowerChar = l := by
  induction l with
  | nil => rfl
  | cons a t ih =>
    rw [List.map_cons, h a (by simp), ih (fun c hc => h c (by simp [hc]))]

theorem strLower_fix {s : String} (h : ∀ c ∈ pyCore s, appCharOk c = true) :
    strLower s = s := by
  have hall : ∀ c ∈ s.data, lowerChar c = c := by
    intro c hc
    unfold pyCore at h
    split at h
    · rename_i hlast
      have hne : s.data ≠ [] := by
        intro hnil
        rw [hnil] at hlast
        simp at hlast
      have hd := List.dropLast_append_getLast hne
      rw [← hd] at hc
      rcases List.mem_append.mp hc with h1 | h1
      · exact lowerChar_fixes (h c h1)
      · have hc' : c = s.data.getLast hne := by simpa using h1
        have hgl : s.data.getLast hne = '\n' := by
          have hx := List.getLast?_eq_getLast (l := s.data) hne
          rw [hx] at hlast
          simpa using hlast
        rw [hc', hgl]
        exact lowerChar_newline
    · exact lowerChar_fixes (h c hc)
  unfold strLower
  rw [map_lowerChar_id hall]

theorem isEmpty_false_iff {α : Type} (l : List α) : l.isEmpty = false ↔ l ≠ [] := by
  cases l <;> simp

/-- Claim C7 counterexample: the validator accepts the string consisting of
the letters of app followed by a newline, even though that string has a
character outside the class `[a-z0-9-]`; Python's `$` anchor also matches
just before one final newline, so the `^[a-z0-9-]+$` check passes. -/
theorem C7_counterexample_trailing_newline :
    validate_application_name "app\n" = true ∧
      '\n' ∈ "app\n".data ∧ appCharOk '\n' = false := by
  refine ⟨by decide, by decide, by decide⟩

/-- Claim C7 (amended): the application-name validator accepts a string iff,
after discarding one optional final newline (Python's `$` semantics), the
remainder is non-empty and drawn from `[a-z0-9-]`, and the original string
does not start or end with a hyphen and has no consecutive hyphens; the
emptiness and lower-case checks of the source are subsumed.  The listed
examples behave as the claim states. -/
theorem C7_app_name_accepts_iff :
    (∀ s : String,
        validate_application_name s = true ↔
          (pyCore s ≠ [] ∧ ∀ c ∈ pyCore s, appCharOk c = true) ∧
          s.data.head? ≠ some '-' ∧ s.data.getLast? ≠ some '-' ∧
          containsSub s.data ['-', '-'] = false) ∧
      validate_application_name "App1" = false ∧
      validate_application_name "my_app" = false ∧
      validate_application_name "-app" = false ∧
      validate_application_name "app-" = false ∧
      validate_application_name "a--b" = false ∧
      validate_application_name "customer-portal-2" = true := by
  refine ⟨?_, by decide, by decide, by decide, by decide, by decide, by decide⟩
  intro s
  have hchecks : validate_application_name s = true ↔
      (s ≠ "" ∧ s = strLower s ∧ pyMatchAppClass s = true ∧
        s.data.head? ≠ some '-' ∧ s.data.getLast? ≠ some '-' ∧
        containsSub s.data ['-', '-'] = false) := by
    unfold validate_application_name
    split_ifs with h1 h2 h3 h4 h5
    · simp [h1]
    · simp [h2]
    · have h3' : pyMatchAppClass s = false := by simpa using h3
      simp [h3']
    · simp only [Bool.or_eq_true, decide_eq_true_eq] at h4
      rcases h4 with h4 | h4 <;> simp [h4]
    · simp [h5]
    · refine ⟨fun _ => ?_, fun _ => rfl⟩
      refine ⟨h1, not_ne_iff.mp h2, by simpa using h3, ?_, ?_, by simpa using h5⟩
      · intro hx
        exact h4 (by simp [hx])
      · intro hx
        exact h4 (by simp [hx])
  rw [hchecks]
  constructor
  · rintro ⟨_, _, h3, h4, h5, h6⟩
    unfold pyMatchAppClass at h3
    rw [Bool.and_eq_true, List.all_eq_true] at h3
    refine ⟨⟨?_, h3.2⟩, h4, h5, h6⟩
    have h31 := h3.1
    rw [Bool.not_eq_eq_eq_not, Bool.not_true, isEmpty_false_iff] at h31
    exact h31
  · rintro ⟨⟨hne, hall⟩, hh, hl, hsub⟩
    have hpm : pyMatchAppClass s = true := by
      unfold pyMatchAppClass
      rw [Bool.and_eq_true, List.all_eq_true]
      refine ⟨?_, hall⟩
      rw [Bool.not_eq_eq_eq_not, Bool.not_true, isEmpty_false_iff]
      exact hne
    refine ⟨?_, (strLower_fix hall).symm, hpm, hh, hl, hsub⟩
    intro h0
    apply hne
    unfold pyCore
    rw [h0]
    rfl

end CI


namespace CI

/-- The entry list stored under key `k` of an association list (Python
`dict` lookup, empty when the key is absent). -/
def valsOf {K V : Type} [DecidableEq K] (l : List (K × List V)) (k : K) :
    List V :=
  ((l.find? fun p => p.1 = k).map Prod.snd).getD []

theorem valsOf_nil {K V : Type} [DecidableEq K] (k : K) :
    valsOf ([] : List (K × List V)) k = [] := rfl

theorem valsOf_cons_self {K V : Type} [DecidableEq K]
    (k : K) (vs : List V) (t : List (K × List V)) :
    valsOf ((k, vs) :: t) k = vs := by
  unfold valsOf
  rw [List.find?_cons_of_pos _ (by simp)]
  rfl

theorem valsOf_cons_ne {K V : Type} [DecidableEq K]
    {k0 k : K} (h : k0 ≠ k) (vs : List V) (t : List (K × List V)) :
    valsOf ((k0, vs) :: t) k = valsOf t k := by
  unfold valsOf
  rw [List.find?_cons_of_neg _ (by simpa using h)]

theorem valsOf_insertAssoc {K V : Type} [DecidableEq K]
    (l : List (K × List V)) (k k' : K) (v : V) :
    valsOf (insertAssoc l k v) k' =
      if k' = k then valsOf l k ++ [v] else valsOf l k' := by
  induction l with
  | nil =>
    by_cases h : k' = k
    · subst h
      rw [if_pos rfl]
      show valsOf [(k', [v])] k' = valsOf [] k' ++ [v]
      rw [valsOf_cons_self, valsOf_nil]
      rfl
    · rw [if_neg h]
      show valsOf [(k, [v])] k' = valsOf [] k'
      rw [valsOf_cons_ne (fun hc => h hc.symm)]
  | cons hd t ih =>
    obtain ⟨k0, vs⟩ := hd
    by_cases h0 : k0 = k
    · subst h0
      rw [show insertAssoc ((k0, vs) :: t) k0 v = (k0, vs ++ [v]) :: t by
        simp [insertAssoc]]
      by_cases h1 : k' = k0
      · subst h1
        rw [if_pos rfl, valsOf_cons_self, valsOf_cons_self]
      · rw [if_neg h1, valsOf_cons_ne (fun hc => h1 hc.symm),
          valsOf_cons_ne (fun hc => h1 hc.symm)]
    · rw [show insertAssoc ((k0, vs) :: t) k v = (k0, vs) :: insertAssoc t k v by
        simp [insertAssoc, h0]]
      by_cases h1 : k' = k0
      · subst h1
        rw [valsOf_cons_self, if_neg (fun hc : k' = k => h0 (hc ▸ rfl)),
          valsOf_cons_self]
      · rw [valsOf_cons_ne (fun hc => h1 hc.symm), ih]
        by_cases h2 : k' = k
        · rw [if_pos h2, if_pos h2, valsOf_cons_ne (h2 ▸ fun hc => h1 hc.symm)]
        · rw [if_neg h2, if_neg h2, valsOf_cons_ne (fun hc => h1 hc.symm)]

theorem valsOf_foldl {K V : Type} [DecidableEq K]
    (ps : List (K × V)) (l : List (K × List V)) (k : K) :
    valsOf (ps.foldl (fun acc pr => insertAssoc acc pr.1 pr.2) l) k =
      valsOf l k ++ (ps.filter fun pr => pr.1 = k).map Prod.snd := by
  induction ps generalizing l with
  | nil => simp
  | cons hd t ih =>
    rw [List.foldl_cons, ih, valsOf_insertAssoc]
    by_cases h : k = hd.1
    · rw [if_pos h, List.filter_cons_of_pos (by simp [← h]), List.map_cons,
        List.append_assoc, ← h]
      rfl
    · rw [if_neg h, List.filter_cons_of_neg (by simpa using fun hc => h hc.symm)]

theorem not_mem_keys_insertAssoc {K V : Type} [DecidableEq K]
    {l : List (K × List V)} {a k : K} (v : V)
    (h1 : a ∉ l.map Prod.fst) (h2 : a ≠ k) :
    a ∉ (insertAssoc l k v).map Prod.fst := by
  induction l with
  | nil => simpa [insertAssoc] using h2
  | cons hd t ih =>
    obtain ⟨k0, vs⟩ := hd
    rw [List.map_cons, List.mem_cons] at h1
    push_neg at h1
    by_cases h0 : k0 = k
    · subst h0
      rw [show insertAssoc ((k0, vs) :: t) k0 v = (k0, vs ++ [v]) :: t by
        simp [insertAssoc]]
      rw [List.map_cons, List.mem_cons]
      push_neg
      exact ⟨h1.1, h1.2⟩
    · rw [show insertAssoc ((k0, vs) :: t) k v = (k0, vs) :: insertAssoc t k v by
        simp [insertAssoc, h0]]
      rw [List.map_cons, List.mem_cons]
      push_neg
      exact ⟨h1.1, ih h1.2⟩

theorem keys_nodup_insertAssoc {K V : Type} [DecidableEq K]
    (l : List (K × List V)) (k : K) (v : V)
    (h : (l.map Prod.fst).Nodup) :
    ((insertAssoc l k v).map Prod.fst).Nodup := by
  induction l with
  | nil => simp [insertAssoc]
  | cons hd t ih =>
    obtain ⟨k0, vs⟩ := hd
    rw [List.map_cons, List.nodup_cons] at h
    by_cases h0 : k0 = k
    · subst h0
      rw [show insertAssoc ((k0, vs) :: t) k0 v = (k0, vs ++ [v]) :: t by
        simp [insertAssoc]]
      rw [List.map_cons, List.nodup_cons]
      exact ⟨h.1, h.2⟩
    · rw [show insertAssoc ((k0, vs) :: t) k v = (k0, vs) :: insertAssoc t k v by
        simp [insertAssoc, h0]]
      rw [List.map_cons, List.nodup_cons]
      exact ⟨not_mem_keys_insertAssoc v h.1 h0, ih h.2⟩

theorem keys_nodup_foldl {K V : Type} [DecidableEq K]
    (ps : List (K × V)) (l : List (K × List V))
    (h : (l.map Prod.fst).Nodup) :
    ((ps.foldl (fun acc pr => insertAssoc acc pr.1 pr.2) l).map Prod.fst).Nodup := by
  induction ps generalizing l with
  | nil => exact h
  | cons hd t ih =>
    rw [List.foldl_cons]
    exact ih _ (keys_nodup_insertAssoc _ _ _ h)

theorem valsOf_of_mem {K V : Type} [DecidableEq K]
    {l : List (K × List V)} {k : K} {es : List V}
    (hnd : (l.map Prod.fst).Nodup) (hm : (k, es) ∈ l) :
    valsOf l k = es := by
  induction l with
  | nil => cases hm
  | cons hd t ih =>
    obtain ⟨k0, vs⟩ := hd
    rw [List.map_cons, List.nodup_cons] at hnd
    rcases List.mem_cons.mp hm with h | h
    · injection h.symm with h1 h2
      subst h1
      subst h2
      exact valsOf_cons_self _ _ _
    · have hk : k0 ≠ k := by
        intro hc
        subst hc
        exact hnd.1 (by simpa using List.mem_map_of_mem Prod.fst h)
      rw [valsOf_cons_ne hk]
      exact ih hnd.2 h

theorem find?_of_valsOf_ne {K V : Type} [DecidableEq K]
    {l : List (K × List V)} {k : K}
    (h : valsOf l k ≠ []) :
    ∃ pr ∈ l, pr.1 = k ∧ pr.2 = valsOf l k := by
  unfold valsOf at h ⊢
  cases hf : l.find? fun p => p.1 = k with
  | none =>
    rw [hf] at h
    simp at h
  | some pr =>
    refine ⟨pr, List.mem_of_find?_eq_some hf, ?_, by simp [hf]⟩
    have := List.find?_some hf
    simpa using this

end CI

namespace CI

/-- The rule keys contributed by a list of services, with multiplicity, in
contribution order. -/
def rulesMulti (svcs : List Spec) : List Rule :=
  (svcs.flatMap specRulePairs).map Prod.fst

/-- `true` when `validate_alb_routing_conflicts` raises. -/
def validatorRejects (specs : List Spec) : Bool :=
  match validate_alb_routing_conflicts specs with
  | .ok _ => false
  | .error _ => true

/-- The per-group test of the validator loop: at least two services and at
least one routing-rule key claimed more than once. -/
def groupHasConflict (g : String × List Spec) : Bool :=
  decide (2 ≤ g.2.length) && !(groupConflictLines g.1 (buildRules g.2)).isEmpty

theorem buildRules_valsOf (svcs : List Spec) (r : Rule) :
    valsOf (buildRules svcs) r =
      ((svcs.flatMap specRulePairs).filter fun pr => pr.1 = r).map Prod.snd := by
  unfold buildRules
  rw [valsOf_foldl]
  rfl

theorem buildRules_keys_nodup (svcs : List Spec) :
    ((buildRules svcs).map Prod.fst).Nodup :=
  keys_nodup_foldl _ _ (by simp)

theorem beq_eq_decide_rule (a b : Rule) : (a == b) = decide (a = b) := by
  by_cases h : a = b <;> simp [h]

theorem valsOf_buildRules_length (svcs : List Spec) (r : Rule) :
    (valsOf (buildRules svcs) r).length =
      (rulesMulti svcs).countP fun x => decide (x = r) := by
  rw [buildRules_valsOf, List.length_map, ← List.countP_eq_length_filter]
  unfold rulesMulti
  rw [List.countP_map]
  rfl

theorem not_nodup_iff_exists_two_count {α : Type} [DecidableEq α] (l : List α) :
    ¬ l.Nodup ↔ ∃ a, 2 ≤ l.countP fun x => decide (x = a) := by
  induction l with
  | nil => simp
  | cons a t ih =>
    rw [List.nodup_cons]
    constructor
    · intro h
      rcases not_and_or.mp h with h | h
      · rw [not_not] at h
        refine ⟨a, ?_⟩
        rw [List.countP_cons, if_pos (by simp)]
        have hpos : 0 < t.countP fun x => decide (x = a) := by
          rw [List.countP_pos_iff]
          exact ⟨a, h, by simp⟩
        omega
      · obtain ⟨b, hb⟩ := ih.mp h
        refine ⟨b, ?_⟩
        rw [List.countP_cons]
        omega
    · rintro ⟨b, hb⟩ ⟨hna, hnd⟩
      rw [List.countP_cons] at hb
      by_cases hab : a = b
      · rw [if_pos (by simp [hab])] at hb
        have hpos : 0 < t.countP fun x => decide (x = b) := by omega
        rw [List.countP_pos_iff] at hpos
        obtain ⟨c, hc, hcb⟩ := hpos
        apply hna
        rw [show a = c by simp at hcb; rw [hab, hcb]]
        exact hc
      · have : 2 ≤ t.countP fun x => decide (x = b) := by
          by_cases hx : decide (a = b) = true
          · exact absurd (of_decide_eq_true hx) hab
          · rw [Bool.not_eq_true] at hx
            rw [hx] at hb
            simpa using hb
        exact ih.mpr ⟨b, this⟩ hnd

theorem groupConflictLines_ne_nil_iff (a : String) (svcs : List Spec) :
    groupConflictLines a (buildRules svcs) ≠ [] ↔ ¬ (rulesMulti svcs).Nodup := by
  constructor
  · intro h
    unfold groupConflictLines at h
    rw [Ne, List.filterMap_eq_nil_iff] at h
    push_neg at h
    obtain ⟨pr, hmem, hne⟩ := h
    have hlen : 2 ≤ pr.2.length := by
      by_contra hc
      exact hne (by simp [hc])
    rw [not_nodup_iff_exists_two_count]
    refine ⟨pr.1, ?_⟩
    rw [← valsOf_buildRules_length,
      valsOf_of_mem (buildRules_keys_nodup svcs) (by simpa using hmem)]
    exact hlen
  · intro h
    rw [not_nodup_iff_exists_two_count] at h
    obtain ⟨r, hr⟩ := h
    rw [← valsOf_buildRules_length] at hr
    have hne : valsOf (buildRules svcs) r ≠ [] := by
      intro hc
      rw [hc] at hr
      simp at hr
    obtain ⟨pr, hmem, hk, hv⟩ := find?_of_valsOf_ne hne
    intro hc
    unfold groupConflictLines at hc
    rw [List.filterMap_eq_nil_iff] at hc
    have hx := hc pr hmem
    rw [if_pos (by rw [hv]; exact hr)] at hx
    cases hx

theorem validateGroups_error_iff (gs : List (String × List Spec)) :
    (∃ m, validateGroups gs = .error m) ↔ ∃ g ∈ gs, groupHasConflict g = true := by
  induction gs with
  | nil => simp [validateGroups]
  | cons g rest ih =>
    obtain ⟨a, svcs⟩ := g
    unfold validateGroups
    by_cases h1 : svcs.length < 2
    · have hg : groupHasConflict (a, svcs) = false := by
        unfold groupHasConflict
        rw [decide_eq_false (show ¬ 2 ≤ svcs.length by omega)]
        rfl
      rw [if_pos h1, ih]
      constructor
      · rintro ⟨g', hg', hc⟩
        exact ⟨g', List.mem_cons_of_mem _ hg', hc⟩
      · rintro ⟨g', hg', hc⟩
        rcases List.mem_cons.mp hg' with rfl | hmem
        · rw [hg] at hc
          cases hc
        · exact ⟨g', hmem, hc⟩
    · rw [if_neg h1]
      by_cases h2 : groupConflictLines a (buildRules svcs) = []
      · have hg : groupHasConflict (a, svcs) = false := by
          unfold groupHasConflict
          rw [h2]
          simp
        rw [if_pos h2, ih]
        constructor
        · rintro ⟨g', hg', hc⟩
          exact ⟨g', List.mem_cons_of_mem _ hg', hc⟩
        · rintro ⟨g', hg', hc⟩
          rcases List.mem_cons.mp hg' with rfl | hmem
          · rw [hg] at hc
            cases hc
          · exact ⟨g', hmem, hc⟩
      · rw [if_neg h2]
        have hg : groupHasConflict (a, svcs) = true := by
          unfold groupHasConflict
          rw [decide_eq_true (show 2 ≤ svcs.length by omega)]
          rw [(isEmpty_false_iff _).mpr h2]
          rfl
        constructor
        · intro _
          exact ⟨(a, svcs), List.mem_cons_self _ _, hg⟩
        · intro _
          exact ⟨groupErrorMsg a (groupConflictLines a (buildRules svcs)), rfl⟩

end CI

namespace CI

theorem albGroups_eq_foldl_pairs (specs : List Spec) :
    ∀ acc : List (String × List Spec),
      specs.foldl
        (fun acc s =>
          match albIdOf s with
          | none => acc
          | some a => insertAssoc acc a s)
        acc =
      (specs.filterMap fun s => (albIdOf s).map fun a => (a, s)).foldl
        (fun acc pr => insertAssoc acc pr.1 pr.2) acc := by
  induction specs with
  | nil => intro acc; rfl
  | cons s rest ih =>
    intro acc
    cases h : albIdOf s with
    | none =>
      simp only [List.foldl_cons, List.filterMap_cons, h, Option.map_none']
      exact ih acc
    | some a =>
      simp only [List.foldl_cons, List.filterMap_cons, h, Option.map_some']
      exact ih _

theorem groupOf_cons (s : Spec) (rest : List Spec) (a : String) :
    groupOf (s :: rest) a =
      if albIdOf s = some a then s :: groupOf rest a else groupOf rest a := by
  unfold groupOf
  by_cases h : albIdOf s = some a <;> simp [List.filter_cons, h]

theorem albGroups_pairs_filter (specs : List Spec) (a : String) :
    (((specs.filterMap fun s => (albIdOf s).map fun a' => (a', s)).filter
        fun pr => pr.1 = a).map Prod.snd) = groupOf specs a := by
  induction specs with
  | nil => rfl
  | cons s rest ih =>
    rw [groupOf_cons]
    cases h : albIdOf s with
    | none =>
      simp only [List.filterMap_cons, h, Option.map_none']
      rw [if_neg (by simp), ih]
    | some b =>
      simp only [List.filterMap_cons, h, Option.map_some']
      by_cases hb : b = a
      · subst hb
        rw [if_pos rfl, List.filter_cons_of_pos (by simp), List.map_cons, ih]
      · rw [if_neg (by simpa using hb),
          List.filter_cons_of_neg (by simpa using hb), ih]

theorem albGroups_valsOf (specs : List Spec) (a : String) :
    valsOf (albGroups specs) a = groupOf specs a := by
  unfold albGroups
  rw [albGroups_eq_foldl_pairs, valsOf_foldl, valsOf_nil, List.nil_append,
    albGroups_pairs_filter]

theorem albGroups_keys_nodup (specs : List Spec) :
    ((albGroups specs).map Prod.fst).Nodup := by
  unfold albGroups
  rw [albGroups_eq_foldl_pairs]
  exact keys_nodup_foldl _ _ (by simp)

theorem mem_albGroups_snd {specs : List Spec} {g : String × List Spec}
    (hm : g ∈ albGroups specs) : g.2 = groupOf specs g.1 := by
  have := valsOf_of_mem (albGroups_keys_nodup specs)
    (show (g.1, g.2) ∈ albGroups specs by simpa using hm)
  rw [albGroups_valsOf] at this
  exact this.symm

theorem mem_albGroups_of_groupOf_ne {specs : List Spec} {a : String}
    (h : groupOf specs a ≠ []) : (a, groupOf specs a) ∈ albGroups specs := by
  have hne : valsOf (albGroups specs) a ≠ [] := by
    rw [albGroups_valsOf]
    exact h
  obtain ⟨pr, hmem, hk, hv⟩ := find?_of_valsOf_ne hne
  rw [albGroups_valsOf] at hv
  have : pr = (a, groupOf specs a) := by
    obtain ⟨p1, p2⟩ := pr
    simp only at hk hv
    rw [hk, hv]
  rw [this] at hmem
  exact hmem

theorem rulesMulti_groupOf (specs : List Spec) (a : String) :
    rulesMulti (groupOf specs a) = groupRules specs a := by
  unfold rulesMulti groupRules
  rw [List.map_flatMap]

end CI

namespace CI

/-- Claim C2 (amended): the conflict validator raises an error if and only
if some ALB id groups at least two services and the combined multiset of
normalized RoutingRules of that group (counting each contribution, so also
two equal rules produced by one single service) contains a repeated rule.
Services without a truthy `alb` block, without a truthy `alb_id`, or
without path patterns contribute no rules. -/
theorem C2_alb_conflict_error_iff (specs : List Spec) :
    validatorRejects specs = true ↔
      ∃ a, 2 ≤ (groupOf specs a).length ∧ ¬ (groupRules specs a).Nodup := by
  have hstep : validatorRejects specs = true ↔
      ∃ m, validate_alb_routing_conflicts specs = .error m := by
    unfold validatorRejects
    cases h : validate_alb_routing_conflicts specs with
    | ok u => simp
    | error m => simp
  rw [hstep]
  unfold validate_alb_routing_conflicts
  rw [validateGroups_error_iff]
  constructor
  · rintro ⟨g, hg, hc⟩
    unfold groupHasConflict at hc
    rw [Bool.and_eq_true, decide_eq_true_eq] at hc
    have h2 := mem_albGroups_snd hg
    refine ⟨g.1, ?_, ?_⟩
    · rw [← h2]
      exact hc.1
    · rw [← rulesMulti_groupOf, ← h2, ← groupConflictLines_ne_nil_iff g.1]
      have hc2 := hc.2
      rw [Bool.not_eq_eq_eq_not, Bool.not_true, isEmpty_false_iff] at hc2
      exact hc2
  · rintro ⟨a, ha2, hnd⟩
    have hne : groupOf specs a ≠ [] := by
      intro hc
      rw [hc] at ha2
      simp at ha2
    refine ⟨(a, groupOf specs a), mem_albGroups_of_groupOf_ne hne, ?_⟩
    unfold groupHasConflict
    rw [Bool.and_eq_true, decide_eq_true_eq]
    refine ⟨ha2, ?_⟩
    rw [Bool.not_eq_eq_eq_not, Bool.not_true, isEmpty_false_iff,
      groupConflictLines_ne_nil_iff, rulesMulti_groupOf]
    exact hnd

/-- A minimal `alb` block used by the concrete examples. -/
def mkAlb (i : String) (ps : List String) : Alb :=
  ⟨some i, some "HTTP", some 80, ps, [], none, none, none, none, none, none⟩

/-- A minimal service spec used by the concrete examples. -/
def mkSvc (n : String) (a : Option Alb) : Spec :=
  ⟨n, "app", some "repo", none, none, none, none, [], a, none, none⟩

/-- Two services on one ALB; the first service alone produces the rule
`(no host, "/x")` twice, because `"/x"` and `"/x/"` normalize equally. -/
def c2ex : List Spec :=
  [mkSvc "s1" (some (mkAlb "alb-1" ["/x", "/x/"])),
   mkSvc "s2" (some (mkAlb "alb-1" ["/y"]))]

/-- Claim C2 counterexample: the validator raises on `c2ex` although no two
distinct services share an ALB id and a common normalized routing rule (the
duplicate rule comes from one single service), refuting the claimed
if-and-only-if. -/
theorem C2_counterexample_internal_duplicate :
    validatorRejects c2ex = true ∧ distinctPairShareRule c2ex = false := by
  constructor
  · rfl
  · rfl

end CI

namespace CI

/-- The first ALB group (in first-occurrence order of `alb_id`) with at
least two services and a repeated routing rule. -/
def firstConflictingGroup (specs : List Spec) : Option (String × List Spec) :=
  (albGroups specs).find? groupHasConflict

theorem containsSub_iff (hay pat : List Char) :
    containsSub hay pat = true ↔ pat <:+: hay := by
  induction hay with
  | nil =>
    show pat.isEmpty = true ↔ _
    rw [List.isEmpty_iff, List.infix_nil]
  | cons c t ih =>
    show (pat.isPrefixOf (c :: t) || containsSub t pat) = true ↔ _
    rw [Bool.or_eq_true, ih, List.isPrefixOf_iff_prefix, List.infix_cons_iff]

theorem joinWith_data_within {x : String} {l : List String} (h : x ∈ l)
    (sep : String) : x.data <:+: (joinWith sep l).data := by
  induction l with
  | nil => cases h
  | cons y rest ih =>
    cases rest with
    | nil =>
      rcases List.mem_singleton.mp h with rfl
      exact List.infix_refl _
    | cons z rest2 =>
      rcases List.mem_cons.mp h with rfl | hmem
      · refine ⟨[], sep.data ++ (joinWith sep (z :: rest2)).data, ?_⟩
        show x.data ++ _ = (x ++ sep ++ joinWith sep (z :: rest2)).data
        simp [String.data_append]
      · refine (ih hmem).trans ?_
        refine ⟨y.data ++ sep.data, [], ?_⟩
        show _ ++ [] = (y ++ sep ++ joinWith sep (z :: rest2)).data
        simp [String.data_append]

theorem message_contains_lines (a : String) (conf : List String) :
    ∀ line ∈ conf, containsSub (groupErrorMsg a conf).data line.data = true := by
  intro line hl
  rw [containsSub_iff]
  refine (joinWith_data_within hl "\n").trans ?_
  unfold groupErrorMsg
  refine ⟨("ALB routing conflicts detected for ALB \x27" ++ a ++ "\x27:\n").data,
    ("\n\nEach service on the same ALB must have unique routing rules (host + path combinations).\n" ++
      "Please update the service definitions to use different path patterns or host patterns.").data, ?_⟩
  simp [String.data_append, List.append_assoc]

theorem validateGroups_error_msg (gs : List (String × List Spec)) (m : String)
    (h : validateGroups gs = .error m) :
    ∃ g, gs.find? groupHasConflict = some g ∧
      m = groupErrorMsg g.1 (groupConflictLines g.1 (buildRules g.2)) := by
  induction gs with
  | nil => simp [validateGroups] at h
  | cons g rest ih =>
    obtain ⟨a, svcs⟩ := g
    unfold validateGroups at h
    by_cases h1 : svcs.length < 2
    · rw [if_pos h1] at h
      have hg : groupHasConflict (a, svcs) = false := by
        unfold groupHasConflict
        rw [decide_eq_false (show ¬ 2 ≤ svcs.length by omega)]
        rfl
      rw [List.find?_cons_of_neg _ (by rw [hg]; simp)]
      exact ih h
    · rw [if_neg h1] at h
      by_cases h2 : groupConflictLines a (buildRules svcs) = []
      · rw [if_pos h2] at h
        have hg : groupHasConflict (a, svcs) = false := by
          unfold groupHasConflict
          rw [h2]
          simp
        rw [List.find?_cons_of_neg _ (by rw [hg]; simp)]
        exact ih h
      · rw [if_neg h2] at h
        have hg : groupHasConflict (a, svcs) = true := by
          unfold groupHasConflict
          rw [decide_eq_true (show 2 ≤ svcs.length by omega),
            (isEmpty_false_iff _).mpr h2]
          rfl
        rw [List.find?_cons_of_pos _ hg]
        injection h with h'
        exact ⟨(a, svcs), rfl, h'.symm⟩

/-- Claim C3 (amended): when the validator fails, its single failure
message is exactly the message of the FIRST conflicting ALB group in
first-occurrence order, and it lists every conflicting host/path rule of
that group (each bullet, with its `application::name` pairs, occurs in the
message); conflicts of later ALB groups are not included. -/
theorem C3_first_conflicting_group_only :
    ∀ (specs : List Spec) (m : String),
      validate_alb_routing_conflicts specs = .error m →
      ∃ g, firstConflictingGroup specs = some g ∧
        m = groupErrorMsg g.1 (groupConflictLines g.1 (buildRules g.2)) ∧
        ∀ line ∈ groupConflictLines g.1 (buildRules g.2),
          containsSub m.data line.data = true := by
  intro specs m h
  obtain ⟨g, hfind, hmsg⟩ := validateGroups_error_msg (albGroups specs) m h
  refine ⟨g, hfind, hmsg, ?_⟩
  intro line hl
  rw [hmsg]
  exact message_contains_lines _ _ line hl

/-- Conflicts on two ALBs: `s1`,`s2` collide on `alb-1` and `s3`,`s4`
collide on `alb-2`. -/
def c3ex : List Spec :=
  [mkSvc "s1" (some (mkAlb "alb-1" ["/x"])),
   mkSvc "s2" (some (mkAlb "alb-1" ["/x"])),
   mkSvc "s3" (some (mkAlb "alb-2" ["/y"])),
   mkSvc "s4" (some (mkAlb "alb-2" ["/y"]))]

/-- The message the validator raises on `c3ex`. -/
def c3msg : String :=
  match validate_alb_routing_conflicts c3ex with
  | .error m => m
  | .ok _ => ""

set_option maxRecDepth 40000 in
/-- Claim C3 counterexample: on `c3ex` the validator fails with a message
that does not mention `alb-2` at all, even though the `alb-2` group also
has a conflict — only the first group's conflicts are reported, refuting
the claim that every ALB group's conflicts appear in the failure. -/
theorem C3_counterexample_second_group_omitted :
    validate_alb_routing_conflicts c3ex = .error c3msg ∧
      groupConflictLines "alb-2" (buildRules (groupOf c3ex "alb-2")) ≠ [] ∧
      containsSub c3msg.data "alb-2".data = false := by
  refine ⟨rfl, by decide, by rfl⟩

/-- Witness for the amended C3 theorem at the concrete input `c3ex`. -/
theorem C3_first_conflicting_group_only_witness :
    ∃ g, firstConflictingGroup c3ex = some g ∧
      c3msg = groupErrorMsg g.1 (groupConflictLines g.1 (buildRules g.2)) ∧
      ∀ line ∈ groupConflictLines g.1 (buildRules g.2),
        containsSub c3msg.data line.data = true :=
  C3_first_conflicting_group_only c3ex c3msg rfl

end CI

namespace CI

/-- Embedding of `hcl_string`: quote and escape embedded double quotes. -/
def hcl_string (v : String) : String :=
  "\x22" ++ ⟨v.data.flatMap fun c => if c = '\x22' then ['\\', '\x22'] else [c]⟩ ++ "\x22"

/-- Rendering of a health-check override value: `hcl_string` for strings,
`str()` for numbers. -/
def hvalStr (v : HclVal) : String :=
  match v with
  | .s x => hcl_string x
  | .i n => toString n

/-- The fixed comment header and the opening of the `services` map. -/
def headerLines : List String :=
  ["# Generated by CI from CI/services/*.yaml or CI/applications/*/services/*.yaml",
   "# DO NOT EDIT MANUALLY; changes will be overwritten.",
   "#",
   "# To add or modify services:",
   "# 1. Edit CI/services/*.yaml (old structure) or CI/applications/\x7bapp\x7d/services/*.yaml (new structure)",
   "# 2. Run the \x27Create / Update ECS Service\x27 workflow in the CI repository",
   "#",
   "# Services can attach to any ALB defined in terraform.tfvars by",
   "# referencing the ALB\x27s key in the \x27alb_id\x27 field.",
   "#",
   "# Each service includes an \x27application\x27 field for multi-application support.",
   "",
   "services = \x7b"]

/-- The `environment_variables` block lines (absent when `env` is falsy). -/
def envLines (env : List (String × String)) : List String :=
  if env = [] then []
  else
    ["    environment_variables = \x7b"] ++
      (env.map fun kv => "      " ++ kv.1 ++ " = " ++ hcl_string kv.2) ++
      ["    \x7d", ""]

/-- One optional line `pre ++ rendered value`, absent when the field is. -/
def optLine (pre : String) : Option HclVal → List String
  | some v => [pre ++ hvalStr v]
  | none => []

/-- One optional line for an integer-valued field. -/
def optIntLine (pre : String) : Option Int → List String
  | some v => [pre ++ toString v]
  | none => []

/-- The optional health-check override lines, in the fixed field order of
the source. -/
def healthLines (a : Alb) : List String :=
  optLine "      health_check_path = " a.health_check_path ++
  optLine "      health_check_matcher = " a.health_check_matcher ++
  optLine "      health_check_interval = " a.health_check_interval ++
  optLine "      health_check_timeout = " a.health_check_timeout ++
  optLine "      health_check_healthy_thr = " a.health_check_healthy_thr ++
  optLine "      health_check_unhealthy_thr = " a.health_check_unhealthy_thr

/-- The required-key names absent from an `alb` block, in check order. -/
def albMissingNames (a : Alb) : List String :=
  (if a.alb_id = none then ["alb_id"] else []) ++
  (if a.listener_protocol = none then ["listener_protocol"] else []) ++
  (if a.listener_port = none then ["listener_port"] else [])

/-- The raise for an `alb` block with missing required keys. -/
def albErr (name : String) (missing : List String) : String :=
  "Service \x27" ++ name ++ "\x27 alb block missing required fields: " ++
    joinWith ", " missing

/-- The `alb` block lines; raises when any of the three required keys is
absent, listing the missing ones. -/
def albLines (name : String) (a : Alb) : Except String (List String) :=
  match a.alb_id, a.listener_protocol, a.listener_port with
  | some aid, some prot, some port =>
    .ok (["    alb = \x7b",
      "      alb_id            = " ++ hcl_string aid,
      "      listener_protocol = " ++ hcl_string prot,
      "      listener_port     = " ++ toString port] ++
      (if a.path_patterns = [] then []
        else ["      path_patterns = [" ++
          joinWith ", " (a.path_patterns.map hcl_string) ++ "]"]) ++
      (if a.host_patterns = [] then []
        else ["      host_patterns = [" ++
          joinWith ", " (a.host_patterns.map hcl_string) ++ "]"]) ++
      healthLines a ++ ["    \x7d", ""])
  | _, _, _ => .error (albErr name (albMissingNames a))

/-- The raise for an `autoscaling` block with a missing capacity bound. -/
def autoErr (name : String) : String :=
  "Service \x27" ++ name ++
    "\x27 autoscaling block must include min_capacity and max_capacity"

/-- The `autoscaling` block lines; raises when `min_capacity` or
`max_capacity` is absent. -/
def autoscalingLines (name : String) (au : Autoscaling) :
    Except String (List String) :=
  match au.min_capacity, au.max_capacity with
  | some mn, some mx =>
    .ok (["    autoscaling = \x7b",
      "      min_capacity  = " ++ toString mn,
      "      max_capacity  = " ++ toString mx] ++
      optIntLine "      cpu_target    = " au.cpu_target ++
      optIntLine "      memory_target = " au.memory_target ++
      ["    \x7d", ""])
  | _, _ => .error (autoErr name)

/-- The `deployment` block lines. -/
def deploymentLines (d : Deployment) : List String :=
  ["    deployment = \x7b"] ++
  optIntLine "      minimum_healthy_percent = " d.minimum_healthy_percent ++
  optIntLine "      maximum_percent = " d.maximum_percent ++
  ["    \x7d", ""]

/-- The raise for a falsy `application` value. -/
def appErr (name : String) : String :=
  "Service \x27" ++ name ++ "\x27 is missing required \x27application\x27 field"

/-- The raise for a falsy `image_repo` value. -/
def imageRepoErr (name : String) : String :=
  "Service \x27" ++ name ++ "\x27 is missing required \x27image_repo\x27"

/-- `image_repo = spec.get("image_repo"); if not image_repo: raise`. -/
def imageRepoOf (s : Spec) : Except String String :=
  match s.image_repo with
  | some r => if r = "" then .error (imageRepoErr s.name) else .ok r
  | none => .error (imageRepoErr s.name)

/-- The `alb` section for a given (possibly falsy) `alb` mapping. -/
def albLinesOfOpt (name : String) : Option Alb → Except String (List String)
  | none => .ok []
  | some a => albLines name a

/-- The `alb` section of a block: absent when the mapping is falsy. -/
def albLinesOf (s : Spec) : Except String (List String) :=
  albLinesOfOpt s.name (albDict s)

/-- The `autoscaling` section for a given (possibly falsy) block. -/
def autoLinesOfOpt (name : String) : Option Autoscaling → Except String (List String)
  | none => .ok []
  | some au => autoscalingLines name au

/-- The `autoscaling` section of a block: absent when falsy. -/
def autoLinesOf (s : Spec) : Except String (List String) :=
  autoLinesOfOpt s.name (autoscalingOpt s)

/-- The `deployment` section for a given (possibly falsy) block. -/
def depLinesOfOpt : Option Deployment → List String
  | none => []
  | some d => deploymentLines d

/-- The `deployment` section of a block: absent when falsy. -/
def depLinesOf (s : Spec) : List String :=
  depLinesOfOpt (deploymentOpt s)

/-- The fixed head of one service block: the opening line and the always
emitted scalar fields, with the source defaults for the integers. -/
def blockHead (s : Spec) (image_repo : String) : List String :=
  ["  " ++ s.name ++ " = \x7b",
   "    container_image = " ++ hcl_string image_repo,
   "    image_tag       = \x22latest\x22",
   "    container_port  = " ++ toString (s.container_port.getD 80),
   "    cpu             = " ++ toString (s.cpu.getD 256),
   "    memory          = " ++ toString (s.memory.getD 512),
   "    desired_count   = " ++ toString (s.desired_count.getD 1),
   "    application     = " ++ hcl_string s.application,
   ""]

/-- The lines of one service block of `render_services_map`, or the first
raise.  The checks run in source order: falsy `application`, falsy
`image_repo`, the `alb` required keys, the `autoscaling` required keys. -/
def renderSpec (s : Spec) : Except String (List String) :=
  if s.application = "" then .error (appErr s.name)
  else
    match imageRepoOf s with
    | .error e => .error e
    | .ok image_repo =>
      match albLinesOf s with
      | .error e => .error e
      | .ok albL =>
        match autoLinesOf s with
        | .error e => .error e
        | .ok auL =>
          .ok (blockHead s image_repo ++ envLines s.env ++ albL ++ auL ++
            depLinesOf s ++ ["  \x7d", ""])

/-- The full line list of `render_services_map`, or the first raise. -/
def renderLines (specs : List Spec) : Except String (List String) := do
  let blocks ← specs.mapM renderSpec
  pure (headerLines ++ blocks.flatten ++ ["\x7d", ""])

/-- Python `"\n".join` producing the document's characters. -/
def joinLines : List String → List Char
  | [] => []
  | [l] => l.data
  | l :: y :: rest => l.data ++ '\n' :: joinLines (y :: rest)

/-- Embedding of `render_services_map`: the generated document text. -/
def render_services_map (specs : List Spec) : Except String (List Char) :=
  (renderLines specs).map joinLines

/-- The generation run of `main`: the ALB conflict validation gate followed
by rendering.  `.ok` carries the line list that is then written to disk in
a single write; on `.error` nothing is written. -/
def pipeline (specs : List Spec) : Except String (List String) :=
  (validate_alb_routing_conflicts specs).bind fun _ => renderLines specs

/-- The written document text of a successful generation run. -/
def pipelineDoc (specs : List Spec) : Except String (List Char) :=
  (pipeline specs).map joinLines

end CI

namespace CI

/-- Whether `image_repo` is falsy (absent or the empty string). -/
def imageRepoFalsy (s : Spec) : Bool :=
  match s.image_repo with
  | none => true
  | some r => r = ""

/-- The required-capacity names absent from a (possibly falsy)
`autoscaling` block. -/
def autoNamesOf : Option Autoscaling → List String
  | some au =>
    if au.min_capacity = none || au.max_capacity = none then
      ["min_capacity", "max_capacity"]
    else []
  | none => []

/-- The required-capacity names absent from a truthy `autoscaling` block. -/
def autoNames (s : Spec) : List String :=
  autoNamesOf (autoscalingOpt s)

/-- A spec missing a required field in the sense of the claim, with the
empty-dict blocks treated as the source treats them (falsy, hence skipped):
falsy `image_repo`, or a truthy `alb` block missing `alb_id`,
`listener_protocol` or `listener_port`, or a truthy `autoscaling` block
missing `min_capacity` or `max_capacity`. -/
def albMissingOf : Option Alb → Bool
  | none => false
  | some a => !(albMissingNames a).isEmpty

def missingRequiredField (s : Spec) : Bool :=
  imageRepoFalsy s || albMissingOf (albDict s) || !(autoNames s).isEmpty

/-- The required-field names whose absence the first raise of `renderSpec`
reports, following the check order of the source. -/
def missingFieldNamesAux (oa : Option Alb) (auto : List String) : List String :=
  match oa with
  | some a =>
    if (albMissingNames a).isEmpty then auto else albMissingNames a
  | none => auto

def missingFieldNames (s : Spec) : List String :=
  if imageRepoFalsy s then ["image_repo"]
  else missingFieldNamesAux (albDict s) (autoNames s)

theorem infix_extend_right {α : Type} {x m : List α} (n : List α)
    (h : x <:+: m) : x <:+: m ++ n := by
  obtain ⟨s, t, hs⟩ := h
  exact ⟨s, t ++ n, by rw [← hs]; simp⟩

theorem infix_extend_left {α : Type} {x n : List α} (m : List α)
    (h : x <:+: n) : x <:+: m ++ n := by
  obtain ⟨s, t, hs⟩ := h
  exact ⟨m ++ s, t, by rw [← hs]; simp⟩

theorem imageRepoOf_error {s : Spec} (h : imageRepoFalsy s = true) :
    imageRepoOf s = .error (imageRepoErr s.name) := by
  unfold imageRepoOf
  unfold imageRepoFalsy at h
  cases hr : s.image_repo with
  | none => rfl
  | some r =>
    rw [hr] at h
    show (if r = "" then Except.error (imageRepoErr s.name) else Except.ok r) = _
    rw [if_pos (by simpa using h)]

theorem imageRepoOf_ok {s : Spec} (h : imageRepoFalsy s = false) :
    ∃ r, imageRepoOf s = .ok r := by
  unfold imageRepoOf
  unfold imageRepoFalsy at h
  cases hr : s.image_repo with
  | none => rw [hr] at h; cases h
  | some r =>
    rw [hr] at h
    refine ⟨r, ?_⟩
    show (if r = "" then Except.error (imageRepoErr s.name) else Except.ok r) = _
    rw [if_neg (by simpa using h)]

theorem albLines_error {name : String} {a : Alb}
    (h : albMissingNames a ≠ []) :
    albLines name a = .error (albErr name (albMissingNames a)) := by
  unfold albLines
  cases h1 : a.alb_id with
  | none =>
    cases a.listener_protocol <;> cases a.listener_port <;> rfl
  | some aid =>
    cases h2 : a.listener_protocol with
    | none => cases a.listener_port <;> rfl
    | some prot =>
      cases h3 : a.listener_port with
      | none => rfl
      | some port =>
        exact absurd (by unfold albMissingNames; rw [h1, h2, h3]; rfl) h

theorem albLines_ok {name : String} {a : Alb}
    (h : albMissingNames a = []) :
    ∃ ls, albLines name a = .ok ls := by
  unfold albMissingNames at h
  cases h1 : a.alb_id with
  | none => rw [h1] at h; simp at h
  | some aid =>
    cases h2 : a.listener_protocol with
    | none => rw [h1, h2] at h; simp at h
    | some prot =>
      cases h3 : a.listener_port with
      | none => rw [h1, h2, h3] at h; simp at h
      | some port =>
        unfold albLines
        rw [h1, h2, h3]
        exact ⟨_, rfl⟩

theorem autoscalingLines_error {name : String} {au : Autoscaling}
    (h : au.min_capacity = none ∨ au.max_capacity = none) :
    autoscalingLines name au = .error (autoErr name) := by
  unfold autoscalingLines
  cases h1 : au.min_capacity with
  | none => cases au.max_capacity <;> rfl
  | some mn =>
    cases h2 : au.max_capacity with
    | none => rfl
    | some mx =>
      rw [h1, h2] at h
      rcases h with h | h <;> cases h

theorem autoscalingLines_ok {name : String} {au : Autoscaling}
    (h1 : au.min_capacity ≠ none) (h2 : au.max_capacity ≠ none) :
    ∃ ls, autoscalingLines name au = .ok ls := by
  unfold autoscalingLines
  cases hm : au.min_capacity with
  | none => exact absurd hm h1
  | some mn =>
    cases hx : au.max_capacity with
    | none => exact absurd hx h2
    | some mx => exact ⟨_, rfl⟩

end CI

namespace CI

theorem containsSub_service_msg_name (n rest : String) :
    containsSub (("Service \x27" ++ n) ++ rest).data n.data = true := by
  rw [containsSub_iff]
  simp only [String.data_append]
  exact infix_extend_right _ (infix_extend_left _ (List.infix_refl _))

theorem containsSub_service_msg_rest (n rest : String) {x : List Char}
    (h : x <:+: rest.data) :
    containsSub (("Service \x27" ++ n) ++ rest).data x = true := by
  rw [containsSub_iff]
  simp only [String.data_append]
  exact infix_extend_left _ h

theorem autoNames_error {s : Spec} (hauto : autoNames s ≠ []) :
    autoLinesOf s = .error (autoErr s.name) ∧
      autoNames s = ["min_capacity", "max_capacity"] := by
  cases hx : autoscalingOpt s with
  | none =>
    exfalso
    apply hauto
    unfold autoNames
    rw [hx]
    rfl
  | some au =>
    have hauto' : autoNamesOf (some au) ≠ [] := by
      unfold autoNames at hauto
      rw [hx] at hauto
      exact hauto
    simp only [autoNamesOf] at hauto'
    by_cases hc : au.min_capacity = none ∨ au.max_capacity = none
    · refine ⟨?_, ?_⟩
      · unfold autoLinesOf
        rw [hx]
        simp only [autoLinesOfOpt]
        exact autoscalingLines_error hc
      · unfold autoNames
        rw [hx]
        simp only [autoNamesOf]
        rw [if_pos (by rcases hc with h | h <;> simp [h])]
    · exfalso
      apply hauto'
      push_neg at hc
      rw [if_neg (by simp [hc.1, hc.2])]

theorem renderSpec_error_of_missing {s : Spec} (happ : s.application ≠ "")
    (hm : missingRequiredField s = true) :
    ∃ e, renderSpec s = .error e ∧ containsSub e.data s.name.data = true ∧
      ∀ f ∈ missingFieldNames s, containsSub e.data f.data = true := by
  by_cases h1 : imageRepoFalsy s = true
  · refine ⟨imageRepoErr s.name, ?_, ?_, ?_⟩
    · unfold renderSpec
      rw [if_neg happ, imageRepoOf_error h1]
    · unfold imageRepoErr
      exact containsSub_service_msg_name _ _
    · intro f hf
      unfold missingFieldNames at hf
      rw [if_pos h1] at hf
      rcases List.mem_singleton.mp hf with rfl
      unfold imageRepoErr
      exact containsSub_service_msg_rest _ _
        ((containsSub_iff _ _).mp (by rfl))
  · rw [Bool.not_eq_true] at h1
    obtain ⟨r, hr⟩ := imageRepoOf_ok h1
    cases ha : albDict s with
    | some a =>
      by_cases hmn : albMissingNames a = []
      · obtain ⟨als, hals⟩ := @albLines_ok s.name _ hmn
        have halbof : albLinesOf s = .ok als := by
          unfold albLinesOf
          rw [ha]
          simp only [albLinesOfOpt]
          exact hals
        have hauto : autoNames s ≠ [] := by
          unfold missingRequiredField at hm
          rw [h1, ha] at hm
          simp only [albMissingOf, hmn] at hm
          simpa using hm
        obtain ⟨herr, hnames⟩ := autoNames_error hauto
        refine ⟨autoErr s.name, ?_, ?_, ?_⟩
        · unfold renderSpec
          rw [if_neg happ, hr, halbof, herr]
        · unfold autoErr
          exact containsSub_service_msg_name _ _
        · intro f hf
          unfold missingFieldNames at hf
          rw [if_neg (by rw [h1]; exact fun hc => Bool.noConfusion hc), ha] at hf
          simp only [missingFieldNamesAux] at hf
          rw [if_pos (by rw [hmn]; rfl), hnames] at hf
          unfold autoErr
          rcases List.mem_cons.mp hf with rfl | hf2
          · exact containsSub_service_msg_rest _ _
              ((containsSub_iff _ _).mp (by rfl))
          · rcases List.mem_singleton.mp hf2 with rfl
            exact containsSub_service_msg_rest _ _
              ((containsSub_iff _ _).mp (by rfl))
      · have halbof : albLinesOf s = .error (albErr s.name (albMissingNames a)) := by
          unfold albLinesOf
          rw [ha]
          simp only [albLinesOfOpt]
          exact albLines_error hmn
        refine ⟨albErr s.name (albMissingNames a), ?_, ?_, ?_⟩
        · unfold renderSpec
          rw [if_neg happ, hr, halbof]
        · unfold albErr
          rw [String.append_assoc]
          exact containsSub_service_msg_name _ _
        · intro f hf
          unfold missingFieldNames at hf
          rw [if_neg (by rw [h1]; exact fun hc => Bool.noConfusion hc), ha] at hf
          simp only [missingFieldNamesAux] at hf
          rw [if_neg (by rw [Bool.not_eq_true, isEmpty_false_iff]; exact hmn)] at hf
          unfold albErr
          rw [String.append_assoc]
          refine containsSub_service_msg_rest _ _ ?_
          rw [String.data_append]
          exact infix_extend_left _ (joinWith_data_within hf ", ")
    | none =>
      have halbof : albLinesOf s = .ok [] := by
        unfold albLinesOf
        rw [ha]
        rfl
      have hauto : autoNames s ≠ [] := by
        unfold missingRequiredField at hm
        rw [h1, ha] at hm
        simp only [albMissingOf] at hm
        simpa using hm
      obtain ⟨herr, hnames⟩ := autoNames_error hauto
      refine ⟨autoErr s.name, ?_, ?_, ?_⟩
      · unfold renderSpec
        rw [if_neg happ, hr, halbof, herr]
      · unfold autoErr
        exact containsSub_service_msg_name _ _
      · intro f hf
        unfold missingFieldNames at hf
        rw [if_neg (by rw [h1]; exact fun hc => Bool.noConfusion hc), ha] at hf
        simp only [missingFieldNamesAux] at hf
        rw [hnames] at hf
        unfold autoErr
        rcases List.mem_cons.mp hf with rfl | hf2
        · exact containsSub_service_msg_rest _ _
            ((containsSub_iff _ _).mp (by rfl))
        · rcases List.mem_singleton.mp hf2 with rfl
          exact containsSub_service_msg_rest _ _
            ((containsSub_iff _ _).mp (by rfl))

theorem renderSpec_ok {s : Spec} (happ : s.application ≠ "")
    (hm : missingRequiredField s = false) : ∃ ls, renderSpec s = .ok ls := by
  unfold missingRequiredField at hm
  rw [Bool.or_eq_false_iff, Bool.or_eq_false_iff] at hm
  obtain ⟨⟨h1, h2⟩, h3⟩ := hm
  obtain ⟨r, hr⟩ := imageRepoOf_ok h1
  have halb : ∃ als, albLinesOf s = .ok als := by
    cases ha : albDict s with
    | none => exact ⟨[], by unfold albLinesOf; rw [ha]; rfl⟩
    | some a =>
      rw [ha] at h2
      simp only [albMissingOf] at h2
      have hmn : albMissingNames a = [] := by
        rw [Bool.not_eq_eq_eq_not, Bool.not_false, List.isEmpty_iff] at h2
        exact h2
      obtain ⟨ls, hls⟩ := @albLines_ok s.name _ hmn
      refine ⟨ls, ?_⟩
      unfold albLinesOf
      rw [ha]
      simp only [albLinesOfOpt]
      exact hls
  obtain ⟨als, hals⟩ := halb
  have hauto : ∃ aus, autoLinesOf s = .ok aus := by
    rw [Bool.not_eq_eq_eq_not, Bool.not_false, List.isEmpty_iff] at h3
    unfold autoNames at h3
    cases hx : autoscalingOpt s with
    | none => exact ⟨[], by unfold autoLinesOf; rw [hx]; rfl⟩
    | some au =>
      rw [hx] at h3
      simp only [autoNamesOf] at h3
      by_cases hc : (au.min_capacity = none || au.max_capacity = none) = true
      · rw [if_pos hc] at h3
        cases h3
      · rw [Bool.or_eq_true] at hc
        push_neg at hc
        obtain ⟨ls, hls⟩ := @autoscalingLines_ok s.name _
          (by simpa using hc.1) (by simpa using hc.2)
        refine ⟨ls, ?_⟩
        unfold autoLinesOf
        rw [hx]
        simp only [autoLinesOfOpt]
        exact hls
  obtain ⟨aus, haus⟩ := hauto
  exact ⟨_, by unfold renderSpec; rw [if_neg happ, hr, hals, haus]⟩

end CI

namespace CI

theorem mapM_renderSpec_error (specs : List Spec)
    (happ : ∀ s ∈ specs, s.application ≠ "")
    (hex : ∃ s ∈ specs, missingRequiredField s = true) :
    ∃ s ∈ specs, missingRequiredField s = true ∧
      ∃ e, specs.mapM renderSpec = (.error e : Except String (List (List String))) ∧
        containsSub e.data s.name.data = true ∧
        ∀ f ∈ missingFieldNames s, containsSub e.data f.data = true := by
  induction specs with
  | nil => simp at hex
  | cons s rest ih =>
    by_cases hm : missingRequiredField s = true
    · obtain ⟨e, he, hn, hf⟩ := renderSpec_error_of_missing (happ s (by simp)) hm
      refine ⟨s, by simp, hm, e, ?_, hn, hf⟩
      rw [List.mapM_cons, he]
      rfl
    · obtain ⟨ls, hok⟩ := renderSpec_ok (happ s (by simp)) (by simpa using hm)
      have hex' : ∃ s' ∈ rest, missingRequiredField s' = true := by
        obtain ⟨s', hs', hms'⟩ := hex
        rcases List.mem_cons.mp hs' with rfl | hmem
        · exact absurd hms' hm
        · exact ⟨s', hmem, hms'⟩
      obtain ⟨s', hs', hms', e, he, hn, hf⟩ :=
        ih (fun x hx => happ x (by simp [hx])) hex'
      refine ⟨s', by simp [hs'], hms', e, ?_, hn, hf⟩
      rw [List.mapM_cons, hok, he]
      rfl

theorem renderLines_error {specs : List Spec} {e : String}
    (h : specs.mapM renderSpec = .error e) : renderLines specs = .error e := by
  unfold renderLines
  rw [h]
  rfl

/-- The empty `alb` mapping of the C4 counterexample. -/
def emptyAlb : Alb :=
  ⟨none, none, none, [], [], none, none, none, none, none, none⟩

/-- A spec whose `alb` block is present but empty: it has no `alb_id`, yet
the source treats the empty mapping as falsy and renders the spec without
raising. -/
def c4spec : Spec :=
  ⟨"web", "app", some "repo", none, none, none, none, [], some emptyAlb,
    none, none⟩

/-- Claim C4 counterexample: `c4spec` carries an `alb` block (the empty
mapping) without `alb_id`, `listener_protocol` or `listener_port`, yet the
generation run succeeds and writes a document instead of aborting: the
source coerces the empty block to "absent" (`spec.get("alb", {}) or {}`
followed by `if alb:`). -/
theorem C4_counterexample_empty_alb_block :
    c4spec.alb = some emptyAlb ∧ emptyAlb.alb_id = none ∧
      ∃ ls, pipeline [c4spec] = .ok ls := by
  refine ⟨rfl, rfl, (pipeline [c4spec]).toOption.getD [], ?_⟩
  rfl

/-- Claim C4 (amended): for every spec list whose specs carry the non-empty
`application` the loader guarantees, if some spec is missing a required
field — falsy `image_repo`, or a truthy (non-empty) `alb` block without
`alb_id`/`listener_protocol`/`listener_port`, or a truthy `autoscaling`
block without `min_capacity`/`max_capacity` — then the generation run
aborts with an error and no document is produced (`pipeline` returns no
`.ok` payload, and `main` writes only the `.ok` payload); moreover when the
ALB-conflict gate passes, the aborting error names the offending service
and every field whose absence it reports.  Empty optional blocks count as
absent, and when the conflict gate itself fails the abort carries the
conflict message instead. -/
theorem C4_missing_field_aborts :
    ∀ specs : List Spec,
      (∀ s ∈ specs, s.application ≠ "") →
      (∃ s ∈ specs, missingRequiredField s = true) →
      (∃ e, pipeline specs = .error e) ∧
      (validate_alb_routing_conflicts specs = .ok () →
        ∃ s ∈ specs, missingRequiredField s = true ∧
          ∃ e, pipeline specs = .error e ∧
            containsSub e.data s.name.data = true ∧
            ∀ f ∈ missingFieldNames s, containsSub e.data f.data = true) := by
  intro specs happ hex
  cases hv : validate_alb_routing_conflicts specs with
  | error e =>
    constructor
    · exact ⟨e, by unfold pipeline; rw [hv]; rfl⟩
    · intro hok
      cases hok
  | ok u =>
    obtain ⟨s, hs, hms, e, he, hn, hf⟩ := mapM_renderSpec_error specs happ hex
    have hpe : pipeline specs = .error e := by
      unfold pipeline
      rw [hv]
      show renderLines specs = .error e
      exact renderLines_error he
    exact ⟨⟨e, hpe⟩, fun _ => ⟨s, hs, hms, e, hpe, hn, hf⟩⟩

/-- The concrete spec of the C4 witness: `image_repo` is absent. -/
def c4wspec : Spec :=
  ⟨"websvc", "app", none, none, none, none, none, [], none, none, none⟩

/-- Witness for the amended C4 theorem at the concrete input `[c4wspec]`. -/
theorem C4_missing_field_aborts_witness :
    (∃ e, pipeline [c4wspec] = .error e) ∧
      (validate_alb_routing_conflicts [c4wspec] = .ok () →
        ∃ s ∈ [c4wspec], missingRequiredField s = true ∧
          ∃ e, pipeline [c4wspec] = .error e ∧
            containsSub e.data s.name.data = true ∧
            ∀ f ∈ missingFieldNames s, containsSub e.data f.data = true) :=
  C4_missing_field_aborts [c4wspec] (by decide) (by decide)

end CI

namespace CI

/-- The key of a service-block opening line of the generated document: two
spaces of indentation (not more), the key, then the literal ` = ` and the
opening brace. -/
def keyOfLine (l : List Char) : Option (List Char) :=
  match l with
  | ' ' :: ' ' :: c :: rest =>
    if c = ' ' then none
    else
      if (" = \x7b".data).isSuffixOf (c :: rest) then
        some ((c :: rest).take ((c :: rest).length - 4))
      else none
  | _ => none

/-- The service keys of the generated document, one per block-opening
line, in document order. -/
def extractKeys (lines : List String) : List (List Char) :=
  lines.filterMap fun l => keyOfLine l.data

theorem data_nil {s : String} (h : s.data = []) : s = "" := by
  cases s
  simp only at h
  rw [h]

theorem keyOfLine_append (c : Char) (cs : List Char) (hc : c ≠ ' ') :
    keyOfLine (' ' :: ' ' :: c :: (cs ++ " = \x7b".data)) = some (c :: cs) := by
  have hs : ((" = \x7b".data).isSuffixOf (c :: (cs ++ " = \x7b".data))) = true := by
    rw [List.isSuffixOf_iff_suffix]
    exact ⟨c :: cs, rfl⟩
  have hlen : (c :: (cs ++ " = \x7b".data)).length - 4 = (c :: cs).length := by
    have h4 : (" = \x7b").data.length = 4 := rfl
    simp only [List.length_cons, List.length_append, h4]
    omega
  show (if c = ' ' then none
    else if (" = \x7b".data).isSuffixOf (c :: (cs ++ " = \x7b".data)) then
      some ((c :: (cs ++ " = \x7b".data)).take
        ((c :: (cs ++ " = \x7b".data)).length - 4))
    else none) = some (c :: cs)
  rw [if_neg hc, if_pos hs, hlen,
    show (c :: (cs ++ " = \x7b".data)) = (c :: cs) ++ " = \x7b".data from rfl,
    List.take_left]

theorem keyOfLine_opener {n : String} (h1 : n ≠ "") (h2 : n.data.head? ≠ some ' ') :
    keyOfLine (("  " ++ n ++ " = \x7b").data) = some n.data := by
  cases hD : n.data with
  | nil => exact absurd (data_nil hD) h1
  | cons c cs =>
    have hc : c ≠ ' ' := by
      rw [hD] at h2
      simpa using h2
    have hdata : ("  " ++ n ++ " = \x7b").data =
        ' ' :: ' ' :: c :: (cs ++ " = \x7b".data) := by
      rw [String.data_append, String.data_append, hD]
      rfl
    rw [hdata]
    exact keyOfLine_append c cs hc

theorem mem_optLine {pre : String} {o : Option HclVal} {l : String}
    (h : l ∈ optLine pre o) : ∃ v, l = pre ++ hvalStr v := by
  cases o with
  | none => simp [optLine] at h
  | some v =>
    simp [optLine] at h
    exact ⟨v, h⟩

theorem mem_optIntLine {pre : String} {o : Option Int} {l : String}
    (h : l ∈ optIntLine pre o) : ∃ v : Int, l = pre ++ toString v := by
  cases o with
  | none => simp [optIntLine] at h
  | some v =>
    simp [optIntLine] at h
    exact ⟨v, h⟩

theorem mem_healthLines_none {a : Alb} {l : String} (hl : l ∈ healthLines a) :
    keyOfLine l.data = none := by
  unfold healthLines at hl
  simp only [List.mem_append] at hl
  rcases hl with ((((hl | hl) | hl) | hl) | hl) | hl <;>
    · obtain ⟨v, rfl⟩ := mem_optLine hl
      rfl

theorem mem_envLines_none {env : List (String × String)} {l : String}
    (hl : l ∈ envLines env) : keyOfLine l.data = none := by
  unfold envLines at hl
  by_cases he : env = []
  · rw [if_pos he] at hl
    cases hl
  · rw [if_neg he] at hl
    simp only [List.mem_append, List.mem_cons, List.mem_singleton,
      List.mem_map, List.not_mem_nil, or_false] at hl
    rcases hl with (rfl | ⟨kv, _, rfl⟩) | rfl | rfl
    · rfl
    · rfl
    · rfl
    · rfl

theorem mem_albLines_ok_none {name : String} {a : Alb} {ls : List String}
    {l : String} (h : albLines name a = .ok ls) (hl : l ∈ ls) :
    keyOfLine l.data = none := by
  unfold albLines at h
  cases h1 : a.alb_id with
  | none => cases a.listener_protocol <;> cases a.listener_port <;>
      (rw [h1] at h; cases h)
  | some aid =>
    cases h2 : a.listener_protocol with
    | none => cases a.listener_port <;> (rw [h1, h2] at h; cases h)
    | some prot =>
      cases h3 : a.listener_port with
      | none =>
        rw [h1, h2, h3] at h
        cases h
      | some port =>
        rw [h1, h2, h3] at h
        injection h with h'
        subst h'
        simp only [List.mem_append, List.mem_cons, List.mem_singleton,
          List.not_mem_nil, or_false] at hl
        rcases hl with ((((rfl | rfl | rfl | rfl) | hl) | hl) | hl) | rfl | rfl
        · rfl
        · rfl
        · rfl
        · rfl
        · by_cases hp : a.path_patterns = []
          · rw [if_pos hp] at hl
            cases hl
          · rw [if_neg hp] at hl
            rcases List.mem_singleton.mp hl with rfl
            rfl
        · by_cases hh : a.host_patterns = []
          · rw [if_pos hh] at hl
            cases hl
          · rw [if_neg hh] at hl
            rcases List.mem_singleton.mp hl with rfl
            rfl
        · exact mem_healthLines_none hl
        · rfl
        · rfl

theorem mem_autoLines_ok_none {name : String} {au : Autoscaling}
    {ls : List String} {l : String} (h : autoscalingLines name au = .ok ls)
    (hl : l ∈ ls) : keyOfLine l.data = none := by
  unfold autoscalingLines at h
  cases h1 : au.min_capacity with
  | none => cases au.max_capacity <;> (rw [h1] at h; cases h)
  | some mn =>
    cases h2 : au.max_capacity with
    | none =>
      rw [h1, h2] at h
      cases h
    | some mx =>
      rw [h1, h2] at h
      injection h with h'
      subst h'
      simp only [List.mem_append, List.mem_cons, List.mem_singleton,
        List.not_mem_nil, or_false] at hl
      rcases hl with (((rfl | rfl | rfl) | hl) | hl) | rfl | rfl
      · rfl
      · rfl
      · rfl
      · obtain ⟨v, rfl⟩ := mem_optIntLine hl
        rfl
      · obtain ⟨v, rfl⟩ := mem_optIntLine hl
        rfl
      · rfl
      · rfl

theorem mem_depLines_none {d : Deployment} {l : String}
    (hl : l ∈ deploymentLines d) : keyOfLine l.data = none := by
  unfold deploymentLines at hl
  simp only [List.mem_append, List.mem_cons, List.mem_singleton,
    List.not_mem_nil, or_false] at hl
  rcases hl with ((rfl | hl) | hl) | rfl | rfl
  · rfl
  · obtain ⟨v, rfl⟩ := mem_optIntLine hl
    rfl
  · obtain ⟨v, rfl⟩ := mem_optIntLine hl
    rfl
  · rfl
  · rfl

end CI

namespace CI

theorem renderSpec_ok_structure {s : Spec} {b : List String}
    (h : renderSpec s = .ok b) :
    ∃ r albL auL,
      albLinesOf s = .ok albL ∧ autoLinesOf s = .ok auL ∧
      b = blockHead s r ++ envLines s.env ++ albL ++ auL ++ depLinesOf s ++
        ["  \x7d", ""] := by
  unfold renderSpec at h
  by_cases happ : s.application = ""
  · rw [if_pos happ] at h
    cases h
  · rw [if_neg happ] at h
    cases hr : imageRepoOf s with
    | error e =>
      rw [hr] at h
      cases h
    | ok r =>
      rw [hr] at h
      cases hal : albLinesOf s with
      | error e =>
        rw [hal] at h
        cases h
      | ok albL =>
        rw [hal] at h
        cases hau : autoLinesOf s with
        | error e =>
          rw [hau] at h
          cases h
        | ok auL =>
          rw [hau] at h
          injection h with h'
          exact ⟨r, albL, auL, rfl, rfl, h'.symm⟩

theorem mem_blockHead_tail_none {s : Spec} {r : String} {l : String}
    (hl : l ∈ (blockHead s r).tail) : keyOfLine l.data = none := by
  unfold blockHead at hl
  simp only [List.tail_cons, List.mem_cons, List.mem_singleton,
    List.not_mem_nil, or_false] at hl
  rcases hl with rfl | rfl | rfl | rfl | rfl | rfl | rfl | rfl
  · rfl
  · rfl
  · rfl
  · rfl
  · rfl
  · rfl
  · rfl
  · rfl

theorem extractKeys_block {s : Spec} {b : List String}
    (h : renderSpec s = .ok b) (h1 : s.name ≠ "")
    (h2 : s.name.data.head? ≠ some ' ') :
    extractKeys b = [s.name.data] := by
  obtain ⟨r, albL, auL, hal, hau, rfl⟩ := renderSpec_ok_structure h
  have hhead : blockHead s r ++ envLines s.env ++ albL ++ auL ++ depLinesOf s ++
      ["  \x7d", ""] =
      ("  " ++ s.name ++ " = \x7b") ::
        ((blockHead s r).tail ++ envLines s.env ++ albL ++ auL ++
          depLinesOf s ++ ["  \x7d", ""]) := by
    unfold blockHead
    rfl
  rw [hhead]
  unfold extractKeys
  rw [List.filterMap_cons]
  rw [keyOfLine_opener h1 h2]
  have hrest : List.filterMap (fun l => keyOfLine l.data)
      ((blockHead s r).tail ++ envLines s.env ++ albL ++ auL ++
        depLinesOf s ++ ["  \x7d", ""]) = [] := by
    rw [List.filterMap_eq_nil_iff]
    intro l hl
    simp only [List.mem_append] at hl
    rcases hl with ((((hl | hl) | hl) | hl) | hl) | hl
    · exact mem_blockHead_tail_none hl
    · exact mem_envLines_none hl
    · unfold albLinesOf at hal
      cases ha : albDict s with
      | none =>
        rw [ha] at hal
        injection hal with h'
        rw [← h'] at hl
        cases hl
      | some a =>
        rw [ha] at hal
        simp only [albLinesOfOpt] at hal
        exact mem_albLines_ok_none hal hl
    · unfold autoLinesOf at hau
      cases hx : autoscalingOpt s with
      | none =>
        rw [hx] at hau
        injection hau with h'
        rw [← h'] at hl
        cases hl
      | some au =>
        rw [hx] at hau
        simp only [autoLinesOfOpt] at hau
        exact mem_autoLines_ok_none hau hl
    · unfold depLinesOf at hl
      cases hd : deploymentOpt s with
      | none =>
        rw [hd] at hl
        cases hl
      | some d =>
        rw [hd] at hl
        exact mem_depLines_none hl
    · rcases List.mem_cons.mp hl with rfl | hl2
      · rfl
      · rcases List.mem_singleton.mp hl2 with rfl
        rfl
  rw [hrest]

theorem extractKeys_append (A B : List String) :
    extractKeys (A ++ B) = extractKeys A ++ extractKeys B := by
  unfold extractKeys
  rw [List.filterMap_append]

theorem extractKeys_flatten {specs : List Spec} {blocks : List (List String)}
    (h : specs.mapM renderSpec = .ok blocks)
    (hn : ∀ s ∈ specs, s.name ≠ "" ∧ s.name.data.head? ≠ some ' ') :
    extractKeys blocks.flatten = specs.map fun s => s.name.data := by
  induction specs generalizing blocks with
  | nil =>
    have : blocks = [] := by
      simp only [List.mapM_nil] at h
      injection h with h'
      exact h'.symm
    subst this
    rfl
  | cons s rest ih =>
    rw [List.mapM_cons] at h
    cases hb : renderSpec s with
    | error e =>
      rw [hb] at h
      cases h
    | ok b =>
      rw [hb] at h
      cases hrest : rest.mapM renderSpec with
      | error e =>
        rw [hrest] at h
        cases h
      | ok bs =>
        rw [hrest] at h
        have hblocks : blocks = b :: bs := by
          injection h with h'
          exact h'.symm
        subst hblocks
        rw [List.flatten_cons, extractKeys_append,
          extractKeys_block hb (hn s (by simp)).1 (hn s (by simp)).2,
          ih hrest (fun x hx => hn x (by simp [hx])), List.map_cons]
        rfl

end CI

namespace CI

/-- Claim C8 (amended): the keys of the blocks of a successfully generated
document are exactly the spec names in order, and they are pairwise
distinct PROVIDED the loaded spec names are pairwise distinct (names being
non-empty and not starting with a space, as the loader's generated inputs
are); the pipeline itself never rejects duplicate names, so uniqueness is
an assumption on the inputs, not an enforced invariant. -/
theorem C8_rendered_keys (specs : List Spec) (ls : List String)
    (hok : pipeline specs = .ok ls)
    (hn : ∀ s ∈ specs, s.name ≠ "" ∧ s.name.data.head? ≠ some ' ')
    (hnd : (specs.map fun s => s.name.data).Nodup) :
    extractKeys ls = (specs.map fun s => s.name.data) ∧
      (extractKeys ls).Nodup := by
  have hrl : renderLines specs = .ok ls := by
    unfold pipeline at hok
    cases hv : validate_alb_routing_conflicts specs with
    | error e =>
      rw [hv] at hok
      cases hok
    | ok u =>
      rw [hv] at hok
      exact hok
  unfold renderLines at hrl
  cases hm : specs.mapM renderSpec with
  | error e =>
    rw [hm] at hrl
    cases hrl
  | ok blocks =>
    rw [hm] at hrl
    have hls : ls = headerLines ++ blocks.flatten ++ ["\x7d", ""] := by
      injection hrl with h'
      exact h'.symm
    subst hls
    have hkeys : extractKeys (headerLines ++ blocks.flatten ++ ["\x7d", ""]) =
        specs.map fun s => s.name.data := by
      rw [extractKeys_append, extractKeys_append, extractKeys_flatten hm hn]
      rw [show extractKeys headerLines = [] from rfl,
        show extractKeys ["\x7d", ""] = [] from rfl]
      simp
    rw [hkeys]
    exact ⟨rfl, hnd⟩

/-- Two distinct spec files both defining a service named `web`: the loader
accepts both (it never checks name uniqueness across files). -/
def c8ex : List Spec :=
  [⟨"web", "a", some "r", none, none, none, none, [], none, none, none⟩,
   ⟨"web", "b", some "r", none, none, none, none, [], none, none, none⟩]

/-- The document lines generated from `c8ex`. -/
def c8lines : List String :=
  match pipeline c8ex with
  | .ok ls => ls
  | .error _ => []

/-- Claim C8 counterexample: the pipeline accepts `c8ex` (both specs are
fully valid) and the generated document contains two blocks that share the
key `web`, refuting the claimed uniqueness of keys. -/
theorem C8_counterexample_duplicate_names :
    pipeline c8ex = .ok c8lines ∧
      extractKeys c8lines = ["web".data, "web".data] ∧
      ¬ (extractKeys c8lines).Nodup := by
  refine ⟨rfl, by rfl, ?_⟩
  intro h
  rw [show extractKeys c8lines = ["web".data, "web".data] from rfl] at h
  simp at h

/-- First spec of the C8 witness input. -/
def c8w1 : Spec :=
  ⟨"api", "a", some "r", none, none, none, none, [], none, none, none⟩

/-- Second spec of the C8 witness input. -/
def c8w2 : Spec :=
  ⟨"worker", "a", some "r", none, none, none, none, [], none, none, none⟩

/-- The document lines generated from the C8 witness input. -/
def c8wlines : List String :=
  match pipeline [c8w1, c8w2] with
  | .ok ls => ls
  | .error _ => []

/-- Witness for the amended C8 theorem at a concrete accepted input. -/
theorem C8_rendered_keys_witness :
    extractKeys c8wlines = ([c8w1, c8w2].map fun s => s.name.data) ∧
      (extractKeys c8wlines).Nodup :=
  C8_rendered_keys [c8w1, c8w2] c8wlines rfl (by decide) (by decide)

end CI


namespace CI

/-- One match of the service block-opening pattern
`^\s*"([^"]+)"\s*=\s*\x7b` (multiline): start offset, end offset, key. -/
structure SMatch where
  start : Nat
  stop : Nat
  key : List Char
deriving DecidableEq

/-- Consume one expected character. -/
def expectChar (c : Char) : List Char → Option (List Char)
  | x :: r => if x = c then some r else none
  | [] => none

theorem expectChar_eq {c : Char} {l r : List Char}
    (h : expectChar c l = some r) : l = c :: r := by
  cases l with
  | nil => cases h
  | cons x t =>
    simp only [expectChar] at h
    by_cases hx : x = c
    · rw [if_pos hx] at h
      injection h with h'
      rw [hx, h']
    · rw [if_neg hx] at h
      cases h

/-- Attempt the block-opening pattern at an anchor position: greedy
whitespace (`\s*`, it may span newlines), a double quote, a non-empty run
of non-quote characters, a double quote, whitespace, `=`, whitespace, and
an opening brace.  Returns the consumed length and the captured key; the
regex is deterministic here because each greedy run is followed by a
character outside its class. -/
def tryServicePat (cs : List Char) : Option (Nat × List Char) :=
  match expectChar '\x22' (cs.dropWhile fun c => isWS c) with
  | none => none
  | some r2 =>
    if (r2.takeWhile fun c => c ≠ '\x22').isEmpty then none
    else
      match expectChar '\x22' (r2.dropWhile fun c => c ≠ '\x22') with
      | none => none
      | some r4 =>
        match expectChar '=' (r4.dropWhile fun c => isWS c) with
        | none => none
        | some r6 =>
          match expectChar '\x7b' (r6.dropWhile fun c => isWS c) with
          | none => none
          | some _ =>
            some ((cs.takeWhile fun c => isWS c).length +
              (r2.takeWhile fun c => c ≠ '\x22').length +
              (r4.takeWhile fun c => isWS c).length +
              (r6.takeWhile fun c => isWS c).length + 4,
              r2.takeWhile fun c => c ≠ '\x22')

theorem tryServicePat_decomp {cs : List Char} {n : Nat} {key : List Char}
    (h : tryServicePat cs = some (n, key)) :
    ∃ ws1 ws2 ws3 rest,
      cs = ws1 ++ '\x22' :: (key ++ '\x22' :: (ws2 ++ '=' :: (ws3 ++ '\x7b' :: rest))) ∧
      n = ws1.length + key.length + ws2.length + ws3.length + 4 ∧
      key ≠ [] ∧
      (∀ c ∈ ws1, isWS c = true) ∧ (∀ c ∈ ws2, isWS c = true) ∧
      (∀ c ∈ ws3, isWS c = true) := by
  unfold tryServicePat at h
  split at h
  · cases h
  rename_i r2 hE1
  split at h
  · cases h
  rename_i hk
  split at h
  · cases h
  rename_i r4 hE2
  split at h
  · cases h
  rename_i r6 hE3
  split at h
  · cases h
  rename_i r8 hE4
  injection h with h'
  injection h' with hn hkey
  have e1 : cs = (cs.takeWhile fun c => isWS c) ++ '\x22' :: r2 := by
    conv_lhs => rw [← List.takeWhile_append_dropWhile (fun c => isWS c) cs]
    rw [expectChar_eq hE1]
  have e2 : r2 = key ++ '\x22' :: r4 := by
    conv_lhs => rw [← List.takeWhile_append_dropWhile
      (fun c => c ≠ '\x22') r2]
    rw [expectChar_eq hE2, hkey]
  have e3 : r4 = (r4.takeWhile fun c => isWS c) ++ '=' :: r6 := by
    conv_lhs => rw [← List.takeWhile_append_dropWhile (fun c => isWS c) r4]
    rw [expectChar_eq hE3]
  have e4 : r6 = (r6.takeWhile fun c => isWS c) ++ '\x7b' :: r8 := by
    conv_lhs => rw [← List.takeWhile_append_dropWhile (fun c => isWS c) r6]
    rw [expectChar_eq hE4]
  refine ⟨cs.takeWhile fun c => isWS c,
    r4.takeWhile fun c => isWS c,
    r6.takeWhile fun c => isWS c, r8, ?_, ?_, ?_, ?_, ?_, ?_⟩
  · conv_rhs => rw [← e4, ← e3, ← e2, ← e1]
  · rw [← hn, ← hkey]
  · intro hnil
    rw [hnil] at hkey
    exact hk (by rw [hkey]; rfl)
  · intro c hc
    exact List.mem_takeWhile_imp hc
  · intro c hc
    exact List.mem_takeWhile_imp hc
  · intro c hc
    exact List.mem_takeWhile_imp hc

theorem tryServicePat_len {cs : List Char} {n : Nat} {key : List Char}
    (h : tryServicePat cs = some (n, key)) : 1 ≤ n ∧ n ≤ cs.length := by
  obtain ⟨ws1, ws2, ws3, rest, hcs, hn, -, -, -, -⟩ := tryServicePat_decomp h
  constructor
  · omega
  · rw [hcs]
    simp only [List.length_append, List.length_cons]
    omega

end CI

namespace CI

/-- One step of `re.finditer` over the multiline pattern: at offset `off`
(anchored iff `anch`, i.e. `off` is 0 or preceded by a newline, so `^` can
match) try the block-opening pattern; on success record the match and
resume at its end, otherwise advance one character.  `fuel` bounds the
recursion; `findMatches` passes `content.length + 1`, which is enough
because every step consumes at least one character. -/
def goFind (fuel : Nat) (off : Nat) (anch : Bool) (rest : List Char) :
    List SMatch :=
  match fuel with
  | 0 => []
  | fuel' + 1 =>
    match rest with
    | [] => []
    | c :: rs =>
      if anch then
        match tryServicePat (c :: rs) with
        | some (n, key) =>
          ⟨off, off + n, key⟩ ::
            goFind fuel' (off + n)
              (decide (((c :: rs).take n).getLast? = some '\x0a'))
              ((c :: rs).drop n)
        | none => goFind fuel' (off + 1) (decide (c = '\x0a')) rs
      else goFind fuel' (off + 1) (decide (c = '\x0a')) rs

/-- `list(service_pattern.finditer(content))` of `update_image_tags`:
all matches of `^\s*"([^"]+)"\s*=\s*\x7b` in document order. -/
def findMatches (content : List Char) : List SMatch :=
  goFind (content.length + 1) 0 true content

/-- The closing-brace scan shared by the patcher (last block) and the
extractor: starting at absolute position `pos` with `rest` the characters
from `pos` on and `k` the current depth, consume characters, adjusting the
depth at each brace, until the depth reaches zero or the text ends;
returns the position one past the last consumed character.  `bumpK` is
the depth update of one character. -/
def bumpK (c : Char) (k : Nat) : Nat :=
  if c = '\x7b' then k + 1 else if c = '\x7d' then k - 1 else k

/-- The scan itself; `findMatches`/`extractBlockAt` call it with depth 1
from just after a block's opening brace. -/
def braceEnd : List Char → Nat → Nat → Nat
  | [], pos, _ => pos
  | c :: rs, pos, k =>
    if bumpK c k = 0 then pos + 1 else braceEnd rs (pos + 1) (bumpK c k)

/-- Python dict lookup `service_tags.get(service_key)` on the parsed
`--service-tags` object. -/
def lookupTag (tags : List (List Char × List Char)) (key : List Char) :
    Option (List Char) :=
  (tags.find? fun p => p.1 == key).map fun p => p.2

/-- The `for next_match in service_matches` loop: the start of the first
match whose start is strictly greater than `p`. -/
def findNextStart (ms : List SMatch) (p : Nat) : Option Nat :=
  (ms.find? fun m => decide (p < m.start)).map SMatch.start

/-- `end_pos` of one service block in `update_image_tags`: the start of
the next service match if any, else the closing-brace scan from
`start_pos` with depth 1. -/
def blockEnd (content : List Char) (ms : List SMatch) (sp : Nat) : Nat :=
  match findNextStart ms sp with
  | some e => e
  | none => braceEnd (content.drop sp) sp 1

/-- Attempt `(image_tag\s*=\s*)"([^"]+)"` at one position: returns the
number of characters up to and including the opening quote together with
the captured tag.  Each greedy run is followed by a character outside its
class, so the regex is deterministic here. -/
def tryTagPat (cs : List Char) : Option (Nat × List Char) :=
  if ("image_tag".data).isPrefixOf cs then
    match expectChar '=' ((cs.drop 9).dropWhile fun c => isWS c) with
    | none => none
    | some r2 =>
      match expectChar '\x22' (r2.dropWhile fun c => isWS c) with
      | none => none
      | some r3 =>
        if (r3.takeWhile fun c => c ≠ '\x22').isEmpty then none
        else
          match expectChar '\x22' (r3.dropWhile fun c => c ≠ '\x22') with
          | none => none
          | some _ =>
            some (9 + ((cs.drop 9).takeWhile fun c => isWS c).length + 1 +
              (r2.takeWhile fun c => isWS c).length + 1,
              r3.takeWhile fun c => c ≠ '\x22')
  else none

/-- `image_tag_pattern.search(service_block)`: try the tag pattern at
offset `off`, `off + 1`, ... and return the first hit as
(match start, length through the opening quote, captured old tag). -/
def findTagAux (off : Nat) : List Char → Option (Nat × Nat × List Char)
  | [] => none
  | c :: rs =>
    match tryTagPat (c :: rs) with
    | some (pre, old) => some (off, pre, old)
    | none => findTagAux (off + 1) rs

/-- The leftmost `image_tag` match of a service block. -/
def findTag (block : List Char) : Option (Nat × Nat × List Char) :=
  findTagAux 0 block

/-- The replacement decision on one block: `none` when no `image_tag`
line matches or the found tag already equals the requested one; otherwise
the whole document with the value span rewritten
(`content[:full_match_start] + group(1) + "new" + content[full_match_end:]`;
the bytes through the opening quote are unchanged, so only the value span
and the text after the closing quote are spliced). -/
def stepCore (content : List Char) (sp : Nat) (newTag : List Char)
    (ft : Option (Nat × Nat × List Char)) : Option (List Char) :=
  match ft with
  | none => none
  | some (s, pre, old) =>
    if old = newTag then none
    else
      some (content.take (sp + s + pre) ++ newTag ++
        '\x22' :: content.drop (sp + s + pre + old.length + 1))

/-- One iteration of the `for match in reversed(service_matches)` loop:
skip services absent from the mapping, otherwise slice the block, search
its `image_tag`, and rewrite the value span when it differs, setting
`changes_made`. -/
def stepUpdate (ms : List SMatch) (tags : List (List Char × List Char))
    (st : List Char × Bool) (m : SMatch) : List Char × Bool :=
  match lookupTag tags m.key with
  | none => st
  | some newTag =>
    match stepCore st.1 m.stop newTag
        (findTag ((st.1.take (blockEnd st.1 ms m.stop)).drop m.stop)) with
    | none => st
    | some c2 => (c2, true)

/-- Embedding of `update_image_tags` on the file's text: the final
document text and `changes_made`.  When no service block matches, the
function warns and returns the text unchanged. -/
def update_image_tags (content : List Char)
    (tags : List (List Char × List Char)) : List Char × Bool :=
  let ms := findMatches content
  if ms.isEmpty then (content, false)
  else ms.reverse.foldl (stepUpdate ms tags) (content, false)

/-- The patcher's `main`: exit 1 only when `--service-tags` is not valid
JSON or not an object; otherwise run `update_image_tags` (a missing file
prints an error and changes nothing) and `sys.exit(0)` unconditionally.
The second component is the text written back, `none` when nothing is
written. -/
def patcherMain (file : Option (List Char))
    (tagsArg : Except String (List (List Char × List Char))) :
    Nat × Option (List Char) :=
  match tagsArg with
  | .error _ => (1, none)
  | .ok tags =>
    match file with
    | none => (0, none)
    | some content =>
      let r := update_image_tags content tags
      (0, if r.2 then some r.1 else none)

/-- The value span a match contributes on the ORIGINAL document: `none`
when the service is not in the mapping, has no `image_tag` match, or
already carries the requested tag; otherwise the half-open span of the
old tag's characters together with the requested replacement. -/
def spanOf (content : List Char) (ms : List SMatch)
    (tags : List (List Char × List Char)) (m : SMatch) :
    Option (Nat × Nat × List Char) :=
  match lookupTag tags m.key with
  | none => none
  | some newTag =>
    match findTag ((content.take (blockEnd content ms m.stop)).drop m.stop) with
    | none => none
    | some (s, pre, old) =>
      if old = newTag then none
      else
        some (m.stop + s + pre, m.stop + s + pre + old.length, newTag)

/-- All value spans a patch run rewrites, in document order. -/
def tagSpans (content : List Char) (tags : List (List Char × List Char)) :
    List (Nat × Nat × List Char) :=
  (findMatches content).filterMap (spanOf content (findMatches content) tags)

/-- Splice replacements into `content` from offset `off` on: outside the
spans the original characters are kept verbatim; inside each span the
replacement text is written. -/
def spliceAll (content : List Char) (off : Nat) :
    List (Nat × Nat × List Char) → List Char
  | [] => content.drop off
  | (vs, ve, w) :: rest =>
    (content.take vs).drop off ++ w ++ spliceAll content ve rest

/-- The spans are ordered and lie inside `[lo, hi]`. -/
def spansWF (lo : Nat) : List (Nat × Nat × List Char) → Nat → Prop
  | [], hi => lo ≤ hi
  | (vs, ve, _) :: rest, hi => lo ≤ vs ∧ vs ≤ ve ∧ spansWF ve rest hi

/-- A lower bound below every span contributed by a suffix of the match
list: the first match's end, or the document's length for the empty
suffix. -/
def headBound (content : List Char) : List SMatch → Nat
  | [] => content.length
  | m :: _ => m.stop

/-- Occurrences of one character, for brace counting. -/
def countBr (c : Char) (l : List Char) : Nat :=
  l.countP fun x => decide (x = c)

/-- Attempt the extractor's block-opening pattern
`^\s+("([^"]+)")\s*=\s*\x7b`: as the patcher's pattern but the leading
whitespace run must be non-empty. -/
def tryServicePatX (cs : List Char) : Option (Nat × List Char) :=
  if (cs.takeWhile fun c => isWS c).isEmpty then none
  else tryServicePat cs

/-- The extractor's `re.finditer` scan, as `goFind` with its pattern. -/
def goFindX (fuel : Nat) (off : Nat) (anch : Bool) (rest : List Char) :
    List SMatch :=
  match fuel with
  | 0 => []
  | fuel' + 1 =>
    match rest with
    | [] => []
    | c :: rs =>
      if anch then
        match tryServicePatX (c :: rs) with
        | some (n, key) =>
          ⟨off, off + n, key⟩ ::
            goFindX fuel' (off + n)
              (decide (((c :: rs).take n).getLast? = some '\x0a'))
              ((c :: rs).drop n)
        | none => goFindX fuel' (off + 1) (decide (c = '\x0a')) rs
      else goFindX fuel' (off + 1) (decide (c = '\x0a')) rs

/-- All matches of the extractor's pattern in document order. -/
def findMatchesX (content : List Char) : List SMatch :=
  goFindX (content.length + 1) 0 true content

/-- The text `content[match.start():pos]` the extractor emits for one
match: from the match's start through the closing-brace scan that starts
just after the opening brace with depth 1. -/
def extractBlockAt (content : List Char) (m : SMatch) : List Char :=
  (content.take (braceEnd (content.drop m.stop) m.stop 1)).drop m.start

/-- Embedding of `extract_service_blocks`: the blocks of the requested
names, in document order. -/
def extract_service_blocks (content : List Char)
    (names : List (List Char)) : List (List Char) :=
  (findMatchesX content).filterMap fun m =>
    if m.key ∈ names then some (extractBlockAt content m) else none

end CI

namespace CI

theorem goFind_zero (off : Nat) (anch : Bool) (rest : List Char) :
    goFind 0 off anch rest = [] := rfl

theorem goFind_nil (f off : Nat) (anch : Bool) :
    goFind (f + 1) off anch [] = [] := rfl

theorem goFind_false (f off : Nat) (c : Char) (rs : List Char) :
    goFind (f + 1) off false (c :: rs) =
      goFind f (off + 1) (decide (c = '\x0a')) rs := rfl

theorem goFind_true_none (f off : Nat) (c : Char) (rs : List Char)
    (h : tryServicePat (c :: rs) = none) :
    goFind (f + 1) off true (c :: rs) =
      goFind f (off + 1) (decide (c = '\x0a')) rs := by
  simp only [goFind, h]
  exact if_pos trivial

theorem goFind_true_some (f off : Nat) (c : Char) (rs : List Char)
    (n : Nat) (key : List Char)
    (h : tryServicePat (c :: rs) = some (n, key)) :
    goFind (f + 1) off true (c :: rs) =
      ⟨off, off + n, key⟩ ::
        goFind f (off + n)
          (decide (((c :: rs).take n).getLast? = some '\x0a'))
          ((c :: rs).drop n) := by
  simp only [goFind, h]
  exact if_pos trivial

/-- A successful block-opening match ends in its opening brace, so the
character just before the scan's resume point is never a newline. -/
theorem tryServicePat_flag {cs : List Char} {n : Nat} {key : List Char}
    (h : tryServicePat cs = some (n, key)) :
    decide ((cs.take n).getLast? = some '\x0a') = false := by
  obtain ⟨ws1, ws2, ws3, rest, hcs, hn, -, -, -, -⟩ := tryServicePat_decomp h
  have hW : cs =
      ((ws1 ++ '\x22' :: (key ++ '\x22' :: (ws2 ++ '=' :: ws3))) ++ ['\x7b'])
        ++ rest := by
    rw [hcs]; simp [List.append_assoc]
  have hlen :
      ((ws1 ++ '\x22' :: (key ++ '\x22' :: (ws2 ++ '=' :: ws3))) ++
        ['\x7b']).length = n := by
    simp only [List.length_append, List.length_cons, List.length_nil]
    omega
  have ht : cs.take n =
      (ws1 ++ '\x22' :: (key ++ '\x22' :: (ws2 ++ '=' :: ws3))) ++ ['\x7b'] := by
    rw [hW, ← hlen, List.take_left]
  rw [ht, List.getLast?_concat]
  rfl

theorem goFind_bounds : ∀ (fuel off : Nat) (anch : Bool) (rest : List Char)
    (m : SMatch), m ∈ goFind fuel off anch rest →
    off ≤ m.start ∧ (anch = false → off < m.start) ∧ m.start < m.stop ∧
      m.stop ≤ off + rest.length := by
  intro fuel
  induction fuel with
  | zero =>
    intro off anch rest m hm
    rw [goFind_zero] at hm
    exact absurd hm (List.not_mem_nil m)
  | succ f ih =>
    intro off anch rest m hm
    cases rest with
    | nil =>
      rw [goFind_nil] at hm
      exact absurd hm (List.not_mem_nil m)
    | cons c rs =>
      cases anch with
      | false =>
        rw [goFind_false] at hm
        obtain ⟨h1, -, h3, h4⟩ := ih (off + 1) (decide (c = '\x0a')) rs m hm
        refine ⟨by omega, fun _ => by omega, h3, ?_⟩
        simp only [List.length_cons]
        omega
      | true =>
        cases htr : tryServicePat (c :: rs) with
        | none =>
          rw [goFind_true_none _ _ _ _ htr] at hm
          obtain ⟨h1, -, h3, h4⟩ := ih (off + 1) (decide (c = '\x0a')) rs m hm
          refine ⟨by omega, fun hh => absurd hh (by decide), h3, ?_⟩
          simp only [List.length_cons]
          omega
        | some p =>
          obtain ⟨n, key⟩ := p
          rw [goFind_true_some _ _ _ _ _ _ htr] at hm
          obtain ⟨hn1, hn2⟩ := tryServicePat_len htr
          rcases List.mem_cons.mp hm with hme | hmt
          · subst hme
            refine ⟨Nat.le_refl _, fun hh => absurd hh (by decide), ?_, ?_⟩
            · show off < off + n
              omega
            · show off + n ≤ off + (c :: rs).length
              omega
          · obtain ⟨h1, -, h3, h4⟩ := ih (off + n) _ ((c :: rs).drop n) m hmt
            have hd : ((c :: rs).drop n).length = (c :: rs).length - n :=
              List.length_drop _ _
            refine ⟨by omega, fun hh => absurd hh (by decide), h3, by omega⟩

theorem goFind_pairwise : ∀ (fuel off : Nat) (anch : Bool) (rest : List Char),
    (goFind fuel off anch rest).Pairwise fun a b => a.stop < b.start := by
  intro fuel
  induction fuel with
  | zero =>
    intro off anch rest
    rw [goFind_zero]
    exact List.Pairwise.nil
  | succ f ih =>
    intro off anch rest
    cases rest with
    | nil =>
      rw [goFind_nil]
      exact List.Pairwise.nil
    | cons c rs =>
      cases anch with
      | false =>
        rw [goFind_false]
        exact ih _ _ _
      | true =>
        cases htr : tryServicePat (c :: rs) with
        | none =>
          rw [goFind_true_none _ _ _ _ htr]
          exact ih _ _ _
        | some p =>
          obtain ⟨n, key⟩ := p
          rw [goFind_true_some _ _ _ _ _ _ htr]
          refine List.Pairwise.cons ?_ (ih _ _ _)
          intro b hb
          rw [tryServicePat_flag htr] at hb
          obtain ⟨-, h2, -, -⟩ :=
            goFind_bounds f (off + n) false ((c :: rs).drop n) b hb
          exact h2 rfl

theorem findMatches_bounds {content : List Char} {m : SMatch}
    (hm : m ∈ findMatches content) :
    m.start < m.stop ∧ m.stop ≤ content.length := by
  obtain ⟨-, -, h3, h4⟩ :=
    goFind_bounds (content.length + 1) 0 true content m hm
  exact ⟨h3, by omega⟩

theorem findMatches_pairwise (content : List Char) :
    (findMatches content).Pairwise fun a b => a.stop < b.start :=
  goFind_pairwise (content.length + 1) 0 true content

theorem braceEnd_bounds : ∀ (rest : List Char) (pos k : Nat),
    pos ≤ braceEnd rest pos k ∧ braceEnd rest pos k ≤ pos + rest.length := by
  intro rest
  induction rest with
  | nil =>
    intro pos k
    simp [braceEnd]
  | cons c rs ih =>
    intro pos k
    simp only [braceEnd]
    by_cases h : bumpK c k = 0
    · rw [if_pos h]
      simp only [List.length_cons]
      omega
    · rw [if_neg h]
      obtain ⟨a, b⟩ := ih (pos + 1) (bumpK c k)
      simp only [List.length_cons]
      omega

theorem countBr_cons_self (c : Char) (l : List Char) :
    countBr c (c :: l) = countBr c l + 1 := by
  simp [countBr, List.countP_cons]

theorem countBr_cons_ne (c x : Char) (l : List Char) (h : x ≠ c) :
    countBr c (x :: l) = countBr c l := by
  simp [countBr, List.countP_cons, h]

theorem braceEnd_count : ∀ (rest : List Char) (pos k : Nat), 1 ≤ k →
    countBr '\x7d' (rest.take (braceEnd rest pos k - pos)) =
      countBr '\x7b' (rest.take (braceEnd rest pos k - pos)) + k ∨
    braceEnd rest pos k = pos + rest.length := by
  intro rest
  induction rest with
  | nil =>
    intro pos k _
    right
    simp [braceEnd]
  | cons c rs ih =>
    intro pos k hk
    simp only [braceEnd]
    by_cases h0 : bumpK c k = 0
    · rw [if_pos h0]
      left
      have h1 : pos + 1 - pos = 1 := by omega
      rw [h1]
      by_cases hc1 : c = '\x7b'
      · rw [bumpK, if_pos hc1] at h0
        omega
      · by_cases hc2 : c = '\x7d'
        · rw [bumpK, if_neg hc1, if_pos hc2] at h0
          have hk1 : k = 1 := by omega
          subst hk1
          rw [hc2]
          simp [countBr, List.countP_cons]
        · rw [bumpK, if_neg hc1, if_neg hc2] at h0
          omega
    · rw [if_neg h0]
      have hk2 : 1 ≤ bumpK c k := Nat.one_le_iff_ne_zero.mpr h0
      rcases ih (pos + 1) (bumpK c k) hk2 with hcount | hend
      · left
        have hb := (braceEnd_bounds rs (pos + 1) (bumpK c k)).1
        have h1 : braceEnd rs (pos + 1) (bumpK c k) - pos =
            (braceEnd rs (pos + 1) (bumpK c k) - (pos + 1)) + 1 := by omega
        rw [h1, List.take_succ_cons]
        by_cases hc1 : c = '\x7b'
        · have hbk : bumpK c k = k + 1 := by rw [bumpK, if_pos hc1]
          rw [hbk] at hcount ⊢
          subst hc1
          rw [countBr_cons_ne _ _ _ (by decide), countBr_cons_self]
          omega
        · by_cases hc2 : c = '\x7d'
          · have hbk : bumpK c k = k - 1 := by
              rw [bumpK, if_neg hc1, if_pos hc2]
            rw [hbk] at hcount ⊢
            subst hc2
            rw [countBr_cons_self, countBr_cons_ne _ _ _ (by decide)]
            omega
          · have hbk : bumpK c k = k := by rw [bumpK, if_neg hc1, if_neg hc2]
            rw [hbk] at hcount ⊢
            rw [countBr_cons_ne _ _ _ hc2, countBr_cons_ne _ _ _ hc1]
            omega
      · right
        rw [hend]
        simp only [List.length_cons]
        omega

theorem drop_split (l : List Char) (off p : Nat) (h1 : off ≤ p)
    (h2 : off ≤ l.length) :
    l.drop off = (l.take p).drop off ++ l.drop p := by
  conv_lhs => rw [← List.take_append_drop p l]
  rw [List.drop_append_of_le_length (by rw [List.length_take]; omega)]

theorem spansWF_mono : ∀ (spans : List (Nat × Nat × List Char))
    (b b' hi : Nat), b ≤ b' → spansWF b' spans hi → spansWF b spans hi := by
  intro spans b b' hi hbb h
  cases spans with
  | nil =>
    simp only [spansWF] at h ⊢
    omega
  | cons s r =>
    obtain ⟨vs, ve, w⟩ := s
    simp only [spansWF] at h ⊢
    exact ⟨by omega, h.2.1, h.2.2⟩

theorem spliceAll_shift (content : List Char) :
    ∀ (spans : List (Nat × Nat × List Char)) (off p : Nat),
      off ≤ p → off ≤ content.length → spansWF p spans content.length →
      spliceAll content off spans =
        (content.take p).drop off ++ spliceAll content p spans := by
  intro spans
  induction spans with
  | nil =>
    intro off p h1 h2 _
    simp only [spliceAll]
    exact drop_split content off p h1 h2
  | cons s r ih =>
    obtain ⟨vs, ve, w⟩ := s
    intro off p h1 h2 h3
    simp only [spansWF] at h3
    obtain ⟨hpv, hvv, hr⟩ := h3
    simp only [spliceAll]
    have key : (content.take vs).drop off =
        ((content.take vs).take p).drop off ++ (content.take vs).drop p :=
      drop_split (content.take vs) off p h1
        (by rw [List.length_take]; omega)
    rw [List.take_take, Nat.min_eq_left hpv] at key
    rw [key]
    simp [List.append_assoc]

theorem find?_append_none {p : SMatch → Bool} {l1 l2 : List SMatch}
    (h : ∀ a ∈ l1, p a = false) :
    (l1 ++ l2).find? p = l2.find? p := by
  induction l1 with
  | nil => rfl
  | cons a t ih =>
    rw [List.cons_append, List.find?_cons_of_neg]
    · exact ih fun x hx => h x (List.mem_cons_of_mem _ hx)
    · intro hpa
      rw [h a (List.mem_cons_self a t)] at hpa
      exact Bool.noConfusion hpa

end CI

namespace CI

theorem tryTagPat_decomp {cs : List Char} {pre : Nat} {old : List Char}
    (h : tryTagPat cs = some (pre, old)) :
    ∃ ws1 ws2 tail,
      cs = ("image_tag".data) ++
        (ws1 ++ '=' :: (ws2 ++ '\x22' :: (old ++ '\x22' :: tail))) ∧
      pre = 11 + ws1.length + ws2.length ∧ old ≠ [] := by
  unfold tryTagPat at h
  split at h
  case isFalse => cases h
  rename_i hpre
  split at h
  · cases h
  rename_i r2 hE1
  split at h
  · cases h
  rename_i r3 hE2
  split at h
  · cases h
  rename_i hk
  split at h
  · cases h
  rename_i r5 hE3
  injection h with h'
  injection h' with hpn hold
  have e0 : cs = ("image_tag".data) ++ cs.drop 9 := by
    obtain ⟨t, ht⟩ := List.isPrefixOf_iff_prefix.mp hpre
    rw [← ht]
    rw [show (9 : Nat) = ("image_tag".data).length from rfl, List.drop_left]
  have e1 : cs.drop 9 =
      ((cs.drop 9).takeWhile fun c => isWS c) ++ '=' :: r2 := by
    conv_lhs => rw [← List.takeWhile_append_dropWhile
      (fun c => isWS c) (cs.drop 9)]
    rw [expectChar_eq hE1]
  have e2 : r2 = (r2.takeWhile fun c => isWS c) ++ '\x22' :: r3 := by
    conv_lhs => rw [← List.takeWhile_append_dropWhile (fun c => isWS c) r2]
    rw [expectChar_eq hE2]
  have e3 : r3 = old ++ '\x22' :: r5 := by
    conv_lhs => rw [← List.takeWhile_append_dropWhile
      (fun c => c ≠ '\x22') r3]
    rw [expectChar_eq hE3, hold]
  refine ⟨(cs.drop 9).takeWhile fun c => isWS c,
    r2.takeWhile fun c => isWS c, r5, ?_, ?_, ?_⟩
  · conv_rhs => rw [← e3, ← e2, ← e1, ← e0]
  · rw [← hpn]
    omega
  · intro hnil
    rw [hnil] at hold
    exact hk (by rw [hold]; rfl)

theorem findTagAux_nil (off : Nat) : findTagAux off [] = none := rfl

theorem findTagAux_cons_some (off : Nat) (c : Char) (rs : List Char)
    (pre : Nat) (old : List Char)
    (h : tryTagPat (c :: rs) = some (pre, old)) :
    findTagAux off (c :: rs) = some (off, pre, old) := by
  simp only [findTagAux, h]

theorem findTagAux_cons_none (off : Nat) (c : Char) (rs : List Char)
    (h : tryTagPat (c :: rs) = none) :
    findTagAux off (c :: rs) = findTagAux (off + 1) rs := by
  simp only [findTagAux, h]

theorem findTagAux_decomp : ∀ (l : List Char) (off s pre : Nat)
    (old : List Char), findTagAux off l = some (s, pre, old) →
    ∃ bpre r2, l = bpre ++ r2 ∧ s = off + bpre.length ∧
      tryTagPat r2 = some (pre, old) := by
  intro l
  induction l with
  | nil =>
    intro off s pre old h
    rw [findTagAux_nil] at h
    cases h
  | cons c rs ih =>
    intro off s pre old h
    cases htp : tryTagPat (c :: rs) with
    | some q =>
      obtain ⟨pre0, old0⟩ := q
      rw [findTagAux_cons_some _ _ _ _ _ htp] at h
      injection h with h'
      injection h' with hs h''
      injection h'' with hp ho
      refine ⟨[], c :: rs, by simp, by simp [hs], ?_⟩
      rw [htp, hp, ho]
    | none =>
      rw [findTagAux_cons_none _ _ _ htp] at h
      obtain ⟨bpre, r2, hl, hs, htt⟩ := ih (off + 1) s pre old h
      refine ⟨c :: bpre, r2, by rw [List.cons_append, hl], ?_, htt⟩
      simp only [List.length_cons]
      omega

theorem findTag_decomp {block : List Char} {s pre : Nat} {old : List Char}
    (h : findTag block = some (s, pre, old)) :
    ∃ A B, block = A ++ (old ++ '\x22' :: B) ∧ A.length = s + pre ∧
      old ≠ [] := by
  obtain ⟨bpre, r2, hb, hs, htt⟩ := findTagAux_decomp block 0 s pre old h
  obtain ⟨ws1, ws2, tail, hr2, hpn, hold⟩ := tryTagPat_decomp htt
  refine ⟨bpre ++ ("image_tag".data) ++ ws1 ++ '=' :: (ws2 ++ ['\x22']),
    tail, ?_, ?_, hold⟩
  · rw [hb, hr2]
    simp [List.append_assoc]
  · have h9 : ("image_tag".data).length = 9 := rfl
    simp only [List.length_append, List.length_cons, List.length_nil, h9]
    omega

theorem goFindX_zero (off : Nat) (anch : Bool) (rest : List Char) :
    goFindX 0 off anch rest = [] := rfl

theorem goFindX_nil (f off : Nat) (anch : Bool) :
    goFindX (f + 1) off anch [] = [] := rfl

theorem goFindX_false (f off : Nat) (c : Char) (rs : List Char) :
    goFindX (f + 1) off false (c :: rs) =
      goFindX f (off + 1) (decide (c = '\x0a')) rs := rfl

theorem goFindX_true_none (f off : Nat) (c : Char) (rs : List Char)
    (h : tryServicePatX (c :: rs) = none) :
    goFindX (f + 1) off true (c :: rs) =
      goFindX f (off + 1) (decide (c = '\x0a')) rs := by
  simp only [goFindX, h]
  exact if_pos trivial

theorem goFindX_true_some (f off : Nat) (c : Char) (rs : List Char)
    (n : Nat) (key : List Char)
    (h : tryServicePatX (c :: rs) = some (n, key)) :
    goFindX (f + 1) off true (c :: rs) =
      ⟨off, off + n, key⟩ ::
        goFindX f (off + n)
          (decide (((c :: rs).take n).getLast? = some '\x0a'))
          ((c :: rs).drop n) := by
  simp only [goFindX, h]
  exact if_pos trivial

theorem tryServicePatX_eq {cs : List Char} {n : Nat} {key : List Char}
    (h : tryServicePatX cs = some (n, key)) :
    tryServicePat cs = some (n, key) := by
  unfold tryServicePatX at h
  split at h
  · cases h
  exact h

/-- Every match the extractor's scan reports is a real match of its
pattern against the document at the match's start, and the match's end
is its start plus the consumed length. -/
theorem goFindX_mem (content : List Char) :
    ∀ (fuel off : Nat) (anch : Bool) (rest : List Char),
      rest = content.drop off →
      ∀ m ∈ goFindX fuel off anch rest,
        ∃ n, tryServicePatX (content.drop m.start) = some (n, m.key) ∧
          m.start = m.start ∧ m.stop = m.start + n := by
  intro fuel
  induction fuel with
  | zero =>
    intro off anch rest _ m hm
    rw [goFindX_zero] at hm
    exact absurd hm (List.not_mem_nil m)
  | succ f ih =>
    intro off anch rest hrest m hm
    cases rest with
    | nil =>
      rw [goFindX_nil] at hm
      exact absurd hm (List.not_mem_nil m)
    | cons c rs =>
      have hrs : rs = content.drop (off + 1) := by
        have : (content.drop off).drop 1 = content.drop (off + 1) := by
          rw [List.drop_drop]
        rw [← this, ← hrest]
        rfl
      cases anch with
      | false =>
        rw [goFindX_false] at hm
        exact ih (off + 1) (decide (c = '\x0a')) rs hrs m hm
      | true =>
        cases htr : tryServicePatX (c :: rs) with
        | none =>
          rw [goFindX_true_none _ _ _ _ htr] at hm
          exact ih (off + 1) (decide (c = '\x0a')) rs hrs m hm
        | some p =>
          obtain ⟨n, key⟩ := p
          rw [goFindX_true_some _ _ _ _ _ _ htr] at hm
          rcases List.mem_cons.mp hm with hme | hmt
          · subst hme
            rw [hrest] at htr
            exact ⟨n, htr, rfl, rfl⟩
          · have hdn : (c :: rs).drop n = content.drop (off + n) := by
              rw [hrest, List.drop_drop]
            exact ih (off + n) _ ((c :: rs).drop n) hdn m hmt

/-- Matches of `findMatchesX` decode against the document. -/
theorem findMatchesX_mem {content : List Char} {m : SMatch}
    (hm : m ∈ findMatchesX content) :
    ∃ n, tryServicePatX (content.drop m.start) = some (n, m.key) ∧
      m.stop = m.start + n := by
  obtain ⟨n, h1, -, h3⟩ :=
    goFindX_mem content (content.length + 1) 0 true content rfl m hm
  exact ⟨n, h1, h3⟩

end CI

namespace CI

/-- Geometry of one block of the patcher, given its position in the match
list: the block end computed on the original document lies between the
match's end and the document's end, stays below the next match's end, and
— whenever a later match exists — does not depend on the document text at
all (the brace scan only runs for the last match). -/
theorem blockEnd_facts (content : List Char) (pr : List SMatch) (m : SMatch)
    (suf' : List SMatch)
    (hpr : pr ++ m :: suf' = findMatches content) :
    m.stop ≤ headBound content suf' ∧
    m.stop ≤ blockEnd content (findMatches content) m.stop ∧
    blockEnd content (findMatches content) m.stop ≤ content.length ∧
    blockEnd content (findMatches content) m.stop ≤ headBound content suf' ∧
    (suf' ≠ [] → ∀ c' : List Char,
      blockEnd c' (findMatches content) m.stop =
        blockEnd content (findMatches content) m.stop) := by
  have hpair := findMatches_pairwise content
  have hmem : m ∈ findMatches content := by
    rw [← hpr]
    exact List.mem_append_right pr (List.mem_cons_self m suf')
  obtain ⟨hms1, hms2⟩ := findMatches_bounds hmem
  rw [← hpr] at hpair
  have hpa := List.pairwise_append.mp hpair
  have hmsuf : ∀ b ∈ suf', m.stop < b.start :=
    (List.pairwise_cons.mp hpa.2.1).1
  have hprm : ∀ a ∈ pr, a.stop < m.start := fun a ha =>
    hpa.2.2 a ha m (List.mem_cons_self m suf')
  have hfalse : ∀ a ∈ pr ++ [m],
      (fun x => decide (m.stop < x.start)) a = false := by
    intro a ha
    rcases List.mem_append.mp ha with h1 | h2
    · have hbm : a ∈ findMatches content := by
        rw [← hpr]
        exact List.mem_append_left _ h1
      obtain ⟨hb1, -⟩ := findMatches_bounds hbm
      have := hprm a h1
      simp only [decide_eq_false_iff_not]
      omega
    · have ha2 := List.mem_singleton.mp h2
      subst ha2
      simp only [decide_eq_false_iff_not]
      omega
  have hfind : findNextStart (findMatches content) m.stop =
      (suf'.find? fun x => decide (m.stop < x.start)).map SMatch.start := by
    unfold findNextStart
    rw [← hpr, show pr ++ m :: suf' = (pr ++ [m]) ++ suf' by simp,
      find?_append_none hfalse]
  cases suf' with
  | nil =>
    have hbe : blockEnd content (findMatches content) m.stop =
        braceEnd (content.drop m.stop) m.stop 1 := by
      unfold blockEnd
      rw [hfind]
      rfl
    obtain ⟨hb1, hb2⟩ := braceEnd_bounds (content.drop m.stop) m.stop 1
    have hdl : (content.drop m.stop).length = content.length - m.stop :=
      List.length_drop _ _
    refine ⟨hms2, ?_, ?_, ?_, fun hne => absurd rfl hne⟩
    · rw [hbe]
      exact hb1
    · rw [hbe]
      omega
    · rw [hbe]
      show braceEnd (content.drop m.stop) m.stop 1 ≤ content.length
      omega
  | cons b suf'' =>
    have hbmem : b ∈ findMatches content := by
      rw [← hpr]
      exact List.mem_append_right _
        (List.mem_cons_of_mem m (List.mem_cons_self b suf''))
    obtain ⟨hbb1, hbb2⟩ := findMatches_bounds hbmem
    have hblt := hmsuf b (List.mem_cons_self b suf'')
    have hfind2 : findNextStart (findMatches content) m.stop =
        some b.start := by
      rw [hfind, List.find?_cons_of_pos]
      · rfl
      · simpa using hblt
    have hbe : ∀ c' : List Char,
        blockEnd c' (findMatches content) m.stop = b.start := by
      intro c'
      unfold blockEnd
      rw [hfind2]
    refine ⟨?_, ?_, ?_, ?_, fun _ c' => by rw [hbe c', hbe content]⟩
    · show m.stop ≤ b.stop
      omega
    · rw [hbe]
      omega
    · rw [hbe]
      omega
    · rw [hbe]
      show b.start ≤ b.stop
      omega

end CI

namespace CI

theorem drop_at_cons (X R : List Char) (c : Char) (v : Nat)
    (hv : v = X.length) :
    (X ++ c :: R).drop v = c :: R ∧ (X ++ c :: R).drop (v + 1) = R := by
  subst hv
  constructor
  · exact List.drop_left X (c :: R)
  · rw [show X.length + 1 = (X ++ [c]).length by simp,
      show X ++ c :: R = (X ++ [c]) ++ R by simp]
    exact List.drop_left _ _

theorem take_at_cons (X R : List Char) (c : Char) (v n : Nat)
    (hv : v = X.length) (hn : v < n) :
    (X ++ c :: R).take n = X ++ c :: R.take (n - v - 1) := by
  subst hv
  conv_lhs => rw [show n = X.length + (n - X.length) by omega]
  rw [List.take_append]
  conv_lhs => rw [show n - X.length = (n - X.length - 1) + 1 by omega]
  rw [List.take_succ_cons]

/-- The heart of the patch run: folding the per-match step over any
suffix of the match list (the loop processes it in reverse) rewrites
exactly that suffix's value spans of the ORIGINAL document, leaving every
other byte as it was, and those spans are ordered, bounded below by the
suffix's first match's end and above by the document's length. -/
theorem fold_splice (content : List Char)
    (tags : List (List Char × List Char)) :
    ∀ suf, suf <:+ findMatches content →
      (suf.reverse.foldl (stepUpdate (findMatches content) tags)
          (content, false) =
        (spliceAll content 0
          (suf.filterMap (spanOf content (findMatches content) tags)),
         !(suf.filterMap
            (spanOf content (findMatches content) tags)).isEmpty)) ∧
      spansWF (headBound content suf)
        (suf.filterMap (spanOf content (findMatches content) tags))
        content.length := by
  intro suf
  induction suf with
  | nil =>
    intro _
    constructor
    · simp [spliceAll]
    · simp [headBound, spansWF]
  | cons m suf' ih =>
    intro hsuf
    have hsuf' : suf' <:+ findMatches content :=
      (List.suffix_cons m suf').trans hsuf
    obtain ⟨hfold', hWF'⟩ := ih hsuf'
    obtain ⟨pr, hpr⟩ := hsuf
    obtain ⟨hF1, hsp_ep, hep_len, hep_p, hindep⟩ :=
      blockEnd_facts content pr m suf' hpr
    have hmem : m ∈ findMatches content := by
      rw [← hpr]
      exact List.mem_append_right pr (List.mem_cons_self m suf')
    obtain ⟨hms1, hms2⟩ := findMatches_bounds hmem
    have hc'eq : spliceAll content 0
        (suf'.filterMap (spanOf content (findMatches content) tags)) =
        content.take (headBound content suf') ++
          spliceAll content (headBound content suf')
            (suf'.filterMap (spanOf content (findMatches content) tags)) := by
      have := spliceAll_shift content
        (suf'.filterMap (spanOf content (findMatches content) tags)) 0
        (headBound content suf') (Nat.zero_le _) (Nat.zero_le _) hWF'
      simpa using this
    have hepc' : blockEnd (spliceAll content 0
        (suf'.filterMap (spanOf content (findMatches content) tags)))
        (findMatches content) m.stop =
        blockEnd content (findMatches content) m.stop := by
      cases suf' with
      | nil => simp [spliceAll]
      | cons b suf'' => exact hindep (by simp) _
    have hep_minlen : blockEnd content (findMatches content) m.stop ≤
        (content.take (headBound content suf')).length := by
      rw [List.length_take]
      omega
    have htake_ep : (spliceAll content 0
        (suf'.filterMap (spanOf content (findMatches content) tags))).take
          (blockEnd content (findMatches content) m.stop) =
        content.take (blockEnd content (findMatches content) m.stop) := by
      rw [hc'eq, List.take_append_of_le_length hep_minlen, List.take_take,
        Nat.min_eq_left hep_p]
    have hblock : ((spliceAll content 0
        (suf'.filterMap (spanOf content (findMatches content) tags))).take
          (blockEnd content (findMatches content) m.stop)).drop m.stop =
        ((content.take (blockEnd content (findMatches content) m.stop)).drop
          m.stop) := by
      rw [htake_ep]
    rw [List.reverse_cons, List.foldl_append, hfold']
    simp only [List.foldl_cons, List.foldl_nil]
    cases hL : lookupTag tags m.key with
    | none =>
      have hstep : ∀ st : List Char × Bool,
          stepUpdate (findMatches content) tags st m = st := by
        intro st
        simp only [stepUpdate, hL]
      have hspan : spanOf content (findMatches content) tags m = none := by
        simp only [spanOf, hL]
      rw [hstep, List.filterMap_cons_none hspan]
      refine ⟨rfl, ?_⟩
      exact spansWF_mono _ _ _ _ hF1 hWF'
    | some newTag =>
      cases hF : findTag ((content.take
          (blockEnd content (findMatches content) m.stop)).drop m.stop) with
      | none =>
        have hstep : stepUpdate (findMatches content) tags
            (spliceAll content 0 (suf'.filterMap
              (spanOf content (findMatches content) tags)),
             !(suf'.filterMap
                (spanOf content (findMatches content) tags)).isEmpty) m =
            (spliceAll content 0 (suf'.filterMap
              (spanOf content (findMatches content) tags)),
             !(suf'.filterMap
                (spanOf content (findMatches content) tags)).isEmpty) := by
          simp only [stepUpdate, hL]
          rw [hepc', hblock, hF]
          rfl
        have hspan : spanOf content (findMatches content) tags m = none := by
          simp only [spanOf, hL, hF]
        rw [hstep, List.filterMap_cons_none hspan]
        refine ⟨rfl, ?_⟩
        exact spansWF_mono _ _ _ _ hF1 hWF'
      | some t =>
        obtain ⟨s, pre, old⟩ := t
        by_cases hEq : old = newTag
        · have hstep : stepUpdate (findMatches content) tags
              (spliceAll content 0 (suf'.filterMap
                (spanOf content (findMatches content) tags)),
               !(suf'.filterMap
                  (spanOf content (findMatches content) tags)).isEmpty) m =
              (spliceAll content 0 (suf'.filterMap
                (spanOf content (findMatches content) tags)),
               !(suf'.filterMap
                  (spanOf content (findMatches content) tags)).isEmpty) := by
            simp only [stepUpdate, hL]
            rw [hepc', hblock, hF]
            simp only [stepCore]
            rw [if_pos hEq]
          have hspan : spanOf content (findMatches content) tags m = none := by
            simp only [spanOf, hL, hF]
            rw [if_pos hEq]
          rw [hstep, List.filterMap_cons_none hspan]
          refine ⟨rfl, ?_⟩
          exact spansWF_mono _ _ _ _ hF1 hWF'
        · obtain ⟨A, B, hAB, hAlen, -⟩ := findTag_decomp hF
          have hblen : ((content.take
              (blockEnd content (findMatches content) m.stop)).drop
                m.stop).length =
              blockEnd content (findMatches content) m.stop - m.stop := by
            rw [List.length_drop, List.length_take]
            omega
          have hABlen : A.length + (old.length + (B.length + 1)) =
              blockEnd content (findMatches content) m.stop - m.stop := by
            rw [hAB] at hblen
            simpa [List.length_append, List.length_cons] using hblen
          have hve1 : m.stop + s + pre + old.length + 1 ≤
              blockEnd content (findMatches content) m.stop := by
            omega
          have hspan : spanOf content (findMatches content) tags m =
              some (m.stop + s + pre, m.stop + s + pre + old.length,
                newTag) := by
            simp only [spanOf, hL, hF]
            rw [if_neg hEq]
          have hstep : stepUpdate (findMatches content) tags
              (spliceAll content 0 (suf'.filterMap
                (spanOf content (findMatches content) tags)),
               !(suf'.filterMap
                  (spanOf content (findMatches content) tags)).isEmpty) m =
              ((spliceAll content 0 (suf'.filterMap
                  (spanOf content (findMatches content) tags))).take
                  (m.stop + s + pre) ++ newTag ++
                '\x22' :: (spliceAll content 0 (suf'.filterMap
                  (spanOf content (findMatches content) tags))).drop
                  (m.stop + s + pre + old.length + 1), true) := by
            simp only [stepUpdate, hL]
            rw [hepc', hblock, hF]
            simp only [stepCore]
            rw [if_neg hEq]
          rw [hstep, List.filterMap_cons_some hspan]
          have htake_vs : (spliceAll content 0 (suf'.filterMap
              (spanOf content (findMatches content) tags))).take
                (m.stop + s + pre) =
              content.take (m.stop + s + pre) := by
            rw [hc'eq, List.take_append_of_le_length
              (by rw [List.length_take]; omega), List.take_take,
              Nat.min_eq_left (by omega)]
          have hdrop_ve : (spliceAll content 0 (suf'.filterMap
              (spanOf content (findMatches content) tags))).drop
                (m.stop + s + pre + old.length + 1) =
              (content.take (headBound content suf')).drop
                  (m.stop + s + pre + old.length + 1) ++
                spliceAll content (headBound content suf')
                  (suf'.filterMap
                    (spanOf content (findMatches content) tags)) := by
            rw [hc'eq, List.drop_append_of_le_length
              (by rw [List.length_take]; omega)]
          have hsplice_ve : spliceAll content (m.stop + s + pre + old.length)
              (suf'.filterMap (spanOf content (findMatches content) tags)) =
              (content.take (headBound content suf')).drop
                  (m.stop + s + pre + old.length) ++
                spliceAll content (headBound content suf')
                  (suf'.filterMap
                    (spanOf content (findMatches content) tags)) :=
            spliceAll_shift content _ _ _ (by omega) (by omega) hWF'
          have hsplit : content = content.take m.stop ++
              (A ++ (old ++ '\x22' :: B)) ++
              content.drop (blockEnd content (findMatches content) m.stop) := by
            rw [← hAB]
            conv_lhs => rw [← List.take_append_drop
              (blockEnd content (findMatches content) m.stop) content]
            congr 1
            conv_lhs => rw [← List.take_append_drop m.stop
              (content.take (blockEnd content (findMatches content) m.stop))]
            rw [List.take_take, Nat.min_eq_left hsp_ep]
          have hsplit2 : content = (content.take m.stop ++ A ++ old) ++
              '\x22' :: (B ++
                content.drop (blockEnd content (findMatches content) m.stop)) := by
            conv_lhs => rw [hsplit]
            simp [List.append_assoc]
          have hXlen : (content.take m.stop ++ A ++ old).length =
              m.stop + s + pre + old.length := by
            simp only [List.length_append, List.length_take]
            omega
          have hp_take : content.take (headBound content suf') =
              (content.take m.stop ++ A ++ old) ++
                '\x22' :: ((B ++ content.drop
                    (blockEnd content (findMatches content) m.stop)).take
                  (headBound content suf' -
                    (m.stop + s + pre + old.length) - 1)) :=
            (congrArg (List.take (headBound content suf')) hsplit2).trans
              (take_at_cons _ _ '\x22' (m.stop + s + pre + old.length)
                (headBound content suf') hXlen.symm (by omega))
          obtain ⟨hq1, hq2⟩ := drop_at_cons
            (content.take m.stop ++ A ++ old)
            ((B ++ content.drop
                (blockEnd content (findMatches content) m.stop)).take
              (headBound content suf' - (m.stop + s + pre + old.length) - 1))
            '\x22' (m.stop + s + pre + old.length) hXlen.symm
          have hquote : (content.take (headBound content suf')).drop
              (m.stop + s + pre + old.length) =
              '\x22' :: (content.take (headBound content suf')).drop
                (m.stop + s + pre + old.length + 1) := by
            rw [hp_take, hq1, hq2]
          constructor
          · simp only [Prod.mk.injEq]
            constructor
            · simp only [spliceAll, List.drop_zero]
              rw [htake_vs, hdrop_ve, hsplice_ve, hquote]
              simp [List.append_assoc]
            · rfl
          · refine ⟨?_, by omega, spansWF_mono _ _ _ _ (by omega) hWF'⟩
            show m.stop ≤ m.stop + s + pre
            omega

end CI

namespace CI

/-- C5: for every document and every tag mapping, the patched document is
the original with ONLY the matched `image_tag` value spans of the services
named in the mapping rewritten: it equals the splice of those spans into
the original text, and the spans are ordered and lie within the document,
so every byte outside them is unchanged; in particular every byte of every
other service's block is unchanged. -/
theorem C5_patch_frame (content : List Char)
    (tags : List (List Char × List Char)) :
    (update_image_tags content tags).1 =
      spliceAll content 0 (tagSpans content tags) ∧
    spansWF 0 (tagSpans content tags) content.length := by
  obtain ⟨hfold, hWF⟩ :=
    fold_splice content tags (findMatches content) (List.suffix_refl _)
  have hWF0 : spansWF 0 (tagSpans content tags) content.length := by
    unfold tagSpans
    exact spansWF_mono _ _ _ _ (Nat.zero_le _) hWF
  refine ⟨?_, hWF0⟩
  unfold tagSpans
  simp only [update_image_tags]
  by_cases hE : (findMatches content).isEmpty
  · rw [if_pos hE]
    have hnil : findMatches content = [] := by
      cases hfm : findMatches content with
      | nil => rfl
      | cons a l => rw [hfm] at hE; cases hE
    rw [hnil]
    simp [spliceAll]
  · rw [if_neg hE, hfold]

end CI

namespace CI

/-- C6: when every service of the mapping already carries the requested
tag (every match of the block pattern whose key is mapped has its found
`image_tag` equal to the mapped tag), the run changes zero bytes —
`update_image_tags` returns the document unchanged with
`changes_made = False`, nothing is written back — and the process still
exits 0: "no changes needed" is success. -/
theorem C6_equal_tag_noop_success (content : List Char)
    (tags : List (List Char × List Char))
    (H : ∀ m ∈ findMatches content, ∀ newTag,
      lookupTag tags m.key = some newTag →
      ∀ s pre old, findTag ((content.take
          (blockEnd content (findMatches content) m.stop)).drop m.stop) =
        some (s, pre, old) → old = newTag) :
    update_image_tags content tags = (content, false) ∧
      patcherMain (some content) (Except.ok tags) = (0, none) := by
  have hspan : ∀ m ∈ findMatches content,
      spanOf content (findMatches content) tags m = none := by
    intro m hm
    unfold spanOf
    cases hL : lookupTag tags m.key with
    | none => rfl
    | some newTag =>
      cases hF : findTag ((content.take
          (blockEnd content (findMatches content) m.stop)).drop m.stop) with
      | none => rfl
      | some t =>
        obtain ⟨s, pre, old⟩ := t
        show (if old = newTag then none
          else some (m.stop + s + pre, m.stop + s + pre + old.length,
            newTag)) = (none : Option (Nat × Nat × List Char))
        rw [if_pos (H m hm newTag hL s pre old hF)]
  have hnil : (findMatches content).filterMap
      (spanOf content (findMatches content) tags) = [] :=
    List.filterMap_eq_nil_iff.mpr hspan
  obtain ⟨hfold, -⟩ :=
    fold_splice content tags (findMatches content) (List.suffix_refl _)
  rw [hnil] at hfold
  have hupd : update_image_tags content tags = (content, false) := by
    simp only [update_image_tags]
    by_cases hE : (findMatches content).isEmpty
    · rw [if_pos hE]
    · rw [if_neg hE, hfold]
      simp [spliceAll]
  refine ⟨hupd, ?_⟩
  simp [patcherMain, hupd]

end CI

namespace CI

/-- C9 counterexample: a run whose tfvars file does not exist but whose
`--service-tags` is a valid JSON object exits 0 (and writes nothing), not
1: `update_image_tags` prints the error and returns False, but `main`
calls `sys.exit(0)` unconditionally afterwards. -/
theorem C9_counterexample_missing_file_exit0 :
    patcherMain none (Except.ok [("web".data, "v2".data)]) = (0, none) :=
  rfl

/-- C9 (amended): the patcher's exit code is 1 exactly when the
`--service-tags` argument fails to parse as a JSON object; every other
run — including one whose tfvars file does not exist — exits 0. -/
theorem C9_exit_codes (file : Option (List Char))
    (tagsArg : Except String (List (List Char × List Char))) :
    (patcherMain file tagsArg).1 =
      match tagsArg with
      | Except.ok _ => 0
      | Except.error _ => 1 := by
  cases tagsArg with
  | error e => rfl
  | ok tags =>
    cases file with
    | none => rfl
    | some content => rfl

/-- The service spec of the C1 scenario: a service named `web`. -/
def c1spec : Spec :=
  ⟨"web", "shop", some "repo/web", none, none, none, none, [], none, none,
    none⟩

/-- The document the renderer writes for `c1spec`. -/
def c1doc : List Char :=
  match pipelineDoc [c1spec] with
  | .ok d => d
  | .error _ => []

set_option maxRecDepth 40000 in
/-- C1: the interop scenario FAILS in the code.  The renderer emits the
block head `  web = \x7b` without quotes around the key, while the
patcher's block pattern requires a quoted key, so on the rendered
document — which does contain `web`'s block with
`image_tag       = "latest"` — the patcher finds no service blocks at
all, changes nothing (it warns "No services found"), and the document
keeps `latest` instead of acquiring `v2`. -/
theorem C1_patcher_misses_renderer_blocks :
    pipelineDoc [c1spec] = Except.ok c1doc ∧
    containsSub c1doc ("image_tag       = \x22latest\x22".data) = true ∧
    containsSub c1doc ("  web = \x7b".data) = true ∧
    findMatches c1doc = [] ∧
    update_image_tags c1doc [("web".data, "v2".data)] = (c1doc, false) ∧
    patcherMain (some c1doc) (Except.ok [("web".data, "v2".data)]) =
      (0, none) := by
  refine ⟨rfl, rfl, rfl, by decide, by decide, ?_⟩
  simp only [patcherMain]
  rw [show update_image_tags c1doc [("web".data, "v2".data)] =
    (c1doc, false) by decide]
  rfl

/-- The document of the C6 witness: one quoted-key block whose tag is
already `v1`. -/
def c6doc : List Char :=
  ("\x22web\x22 = \x7b\x0a  image_tag = \x22v1\x22\x0a\x7d\x0a").data

/-- The mapping of the C6 witness: `web` is requested to stay at `v1`. -/
def c6tags : List (List Char × List Char) :=
  [("web".data, "v1".data)]

set_option maxRecDepth 40000 in
/-- Witness for C6 at a concrete run: the patcher matches the quoted-key
block, finds tag `v1` equal to the requested one, changes nothing and
exits 0. -/
theorem C6_equal_tag_noop_success_witness :
    update_image_tags c6doc c6tags = (c6doc, false) ∧
      patcherMain (some c6doc) (Except.ok c6tags) = (0, none) := by
  apply C6_equal_tag_noop_success c6doc c6tags
  intro m hm newTag hL s pre old hF
  rw [show findMatches c6doc = [⟨0, 9, "web".data⟩] from rfl] at hm
  have hm' : m = ⟨0, 9, "web".data⟩ := by simpa using hm
  subst hm'
  rw [show lookupTag c6tags (SMatch.key ⟨0, 9, "web".data⟩) =
    some ("v1".data) from rfl] at hL
  injection hL with hLe
  have hFv : findTag ((c6doc.take (blockEnd c6doc (findMatches c6doc)
      (SMatch.stop ⟨0, 9, "web".data⟩))).drop
        (SMatch.stop ⟨0, 9, "web".data⟩)) =
      some (3, 13, "v1".data) := rfl
  have hcmp := hFv.symm.trans hF
  injection hcmp with h1
  injection h1 with hs h2
  injection h2 with hp ho
  rw [← ho, ← hLe]

end CI

namespace CI

theorem isWS_not_brace (c : Char) (h : isWS c = true) :
    c ≠ '\x7b' ∧ c ≠ '\x7d' := by
  simp only [isWS, Bool.or_eq_true, decide_eq_true_eq] at h
  rcases h with ((((h | h) | h) | h) | h) | h <;> subst h <;>
    exact ⟨by decide, by decide⟩

theorem countBr_append (c : Char) (a b : List Char) :
    countBr c (a ++ b) = countBr c a + countBr c b := by
  simp [countBr, List.countP_append]

/-- C10 (amended): an extracted block balances its braces PROVIDED the
requested key contains no brace character and the closing-brace scan of
its block stops before the end of the document; the match's leading
whitespace, quotes, `=` and the key then contribute no braces beyond the
opening one, and the scanned body closes exactly one more brace than it
opens. -/
theorem C10_extract_balance (content : List Char) (names : List (List Char))
    (m : SMatch) (hm : m ∈ findMatchesX content) (hname : m.key ∈ names)
    (hkey : ∀ c ∈ m.key, c ≠ '\x7b' ∧ c ≠ '\x7d')
    (hB : braceEnd (content.drop m.stop) m.stop 1 < content.length) :
    extractBlockAt content m ∈ extract_service_blocks content names ∧
    countBr '\x7b' (extractBlockAt content m) =
      countBr '\x7d' (extractBlockAt content m) := by
  constructor
  · unfold extract_service_blocks
    refine List.mem_filterMap.mpr ⟨m, hm, ?_⟩
    rw [if_pos hname]
  · obtain ⟨n, hX, hstop⟩ := findMatchesX_mem hm
    have htry := tryServicePatX_eq hX
    obtain ⟨hn1, hn2⟩ := tryServicePat_len htry
    obtain ⟨ws1, ws2, ws3, rest2, hD, hn, -, hw1, hw2, hw3⟩ :=
      tryServicePat_decomp htry
    have hW : content.drop m.start =
        ((ws1 ++ '\x22' :: (m.key ++ '\x22' :: (ws2 ++ '=' :: ws3))) ++
          ['\x7b']) ++ rest2 := by
      rw [hD]
      simp [List.append_assoc]
    have hWlen : ((ws1 ++ '\x22' :: (m.key ++ '\x22' :: (ws2 ++ '=' :: ws3)))
        ++ ['\x7b']).length = n := by
      simp only [List.length_append, List.length_cons, List.length_nil]
      omega
    have hdlen : (content.drop m.start).length =
        content.length - m.start := List.length_drop _ _
    have hstop_le : m.stop ≤ content.length := by omega
    obtain ⟨hb1, hb2⟩ := braceEnd_bounds (content.drop m.stop) m.stop 1
    have hdlen2 : (content.drop m.stop).length =
        content.length - m.stop := List.length_drop _ _
    have hrest2 : rest2 = content.drop m.stop := by
      have h1 : (content.drop m.start).drop n = rest2 := by
        rw [hW, ← hWlen, List.drop_left]
      rw [hstop, ← h1, List.drop_drop]
    have hblock : extractBlockAt content m =
        ((ws1 ++ '\x22' :: (m.key ++ '\x22' :: (ws2 ++ '=' :: ws3))) ++
          ['\x7b']) ++ (content.drop m.stop).take
            (braceEnd (content.drop m.stop) m.stop 1 - m.stop) := by
      unfold extractBlockAt
      rw [List.drop_take]
      rw [show braceEnd (content.drop m.stop) m.stop 1 - m.start =
        n + (braceEnd (content.drop m.stop) m.stop 1 - m.stop) by omega]
      rw [hW, ← hWlen, List.take_append, hrest2]
    rw [hblock]
    have hcW : ∀ c ∈ ws1 ++ '\x22' :: (m.key ++ '\x22' ::
        (ws2 ++ '=' :: ws3)), c ≠ '\x7b' ∧ c ≠ '\x7d' := by
      intro c hc
      simp only [List.mem_append, List.mem_cons] at hc
      rcases hc with h | rfl | h | rfl | h | rfl | h
      · exact isWS_not_brace c (hw1 c h)
      · exact ⟨by decide, by decide⟩
      · exact hkey c h
      · exact ⟨by decide, by decide⟩
      · exact isWS_not_brace c (hw2 c h)
      · exact ⟨by decide, by decide⟩
      · exact isWS_not_brace c (hw3 c h)
    have hzW1 : countBr '\x7b' (ws1 ++ '\x22' :: (m.key ++ '\x22' ::
        (ws2 ++ '=' :: ws3))) = 0 := by
      simp only [countBr]
      refine List.countP_eq_zero.mpr ?_
      intro a ha
      simpa using (hcW a ha).1
    have hzW2 : countBr '\x7d' (ws1 ++ '\x22' :: (m.key ++ '\x22' ::
        (ws2 ++ '=' :: ws3))) = 0 := by
      simp only [countBr]
      refine List.countP_eq_zero.mpr ?_
      intro a ha
      simpa using (hcW a ha).2
    rcases braceEnd_count (content.drop m.stop) m.stop 1 (Nat.le_refl 1)
      with hcnt | hend
    · rw [countBr_append '\x7b'
          ((ws1 ++ '\x22' :: (m.key ++ '\x22' :: (ws2 ++ '=' :: ws3))) ++
            ['\x7b'])
          ((content.drop m.stop).take
            (braceEnd (content.drop m.stop) m.stop 1 - m.stop)),
        countBr_append '\x7b'
          (ws1 ++ '\x22' :: (m.key ++ '\x22' :: (ws2 ++ '=' :: ws3)))
          ['\x7b'],
        countBr_append '\x7d'
          ((ws1 ++ '\x22' :: (m.key ++ '\x22' :: (ws2 ++ '=' :: ws3))) ++
            ['\x7b'])
          ((content.drop m.stop).take
            (braceEnd (content.drop m.stop) m.stop 1 - m.stop)),
        countBr_append '\x7d'
          (ws1 ++ '\x22' :: (m.key ++ '\x22' :: (ws2 ++ '=' :: ws3)))
          ['\x7b']]
      have h1 : countBr '\x7b' ['\x7b'] = 1 := rfl
      have h2 : countBr '\x7d' ['\x7b'] = 0 := rfl
      omega
    · exfalso
      omega

end CI

namespace CI

/-- The service spec of the C10 counterexample: its NAME carries literal
double quotes and an opening brace (nothing in the pipeline validates
service names), and one env value carries a closing brace, so the
rendered document is brace-balanced overall while its block-head line
`  "a\x7bb" = \x7b` matches the extractor's quoted-key pattern with the
brace-bearing key `a\x7bb`. -/
def c10spec : Spec :=
  ⟨"\x22a\x7bb\x22", "a", some "r", none, none, none, none,
    [("K", "\x7d")], none, none, none⟩

/-- The document the renderer writes for `c10spec`. -/
def c10doc : List Char :=
  match pipelineDoc [c10spec] with
  | .ok d => d
  | .error _ => []

set_option maxRecDepth 100000 in
/-- C10 counterexample: the generated document is brace-balanced and the
requested name's block-opening line occurs in it, yet the single block
the extractor emits holds three opening braces against two closing ones:
the key's brace inflates the count and the env value's brace ends the
scan early. -/
theorem C10_counterexample_brace_key :
    pipelineDoc [c10spec] = Except.ok c10doc ∧
    countBr '\x7b' c10doc = countBr '\x7d' c10doc ∧
    findMatchesX c10doc = [⟨549, 560, ("a\x7bb").data⟩] ∧
    (extract_service_blocks c10doc [("a\x7bb").data]).length = 1 ∧
    ∀ b ∈ extract_service_blocks c10doc [("a\x7bb").data],
      countBr '\x7b' b ≠ countBr '\x7d' b :=
  ⟨rfl, by decide, by decide, by decide, by decide⟩

/-- The document of the C10 witness: one indented quoted-key block with
a brace-free key. -/
def c10wdoc : List Char :=
  ("  \x22web\x22 = \x7b\x0a    image_tag = \x22v1\x22\x0a  \x7d\x0a").data

set_option maxRecDepth 40000 in
/-- Witness for the amended C10 theorem at a concrete document: the
extractor's single match for `web` yields a block with equal brace
counts. -/
theorem C10_extract_balance_witness :
    extractBlockAt c10wdoc ⟨0, 11, ("web").data⟩ ∈
      extract_service_blocks c10wdoc [("web").data] ∧
    countBr '\x7b' (extractBlockAt c10wdoc ⟨0, 11, ("web").data⟩) =
      countBr '\x7d' (extractBlockAt c10wdoc ⟨0, 11, ("web").data⟩) :=
  C10_extract_balance c10wdoc [("web").data] ⟨0, 11, ("web").data⟩
    (by decide) (by decide) (by decide) (by decide)

end CI
